import Mathlib

/-!
Verification of the Nonogram solver (`Nonogram.py`) and the clue extractor of the
puzzle generator (`makenonogram.py`).

Conventions of the embedding:
* a line cell value is a `Bool`: `false` = 0 = Empty, `true` = 1 = Filled;
* a grid cell is an `Option Bool`: `none` = unknown (Python `None`);
* Python sets of line tuples are modelled as duplicate-free lists (`List.dedup`
  of the generator output); all solver operations on them are order-insensitive
  except the branching order over candidate cell values, which in CPython
  iterates a subset of `{0, 1}` in ascending order — modelled by trying
  `false` before `true`;
* the `while changed` loop of `_update_domains` runs on an explicit pass
  counter `smeasure s + 1`, which is proved sufficient (each changed pass
  strictly decreases `smeasure`), with a fuel-irrelevance lemma recovering the
  exact loop equation;
* the recursion of `solve` carries explicit fuel, `none` meaning the fuel ran
  out (never the case for fuel larger than the finished run's depth).
-/

namespace Nonogram

/-- Line cell: `false` = empty (0), `true` = filled (1). -/
abbrev Line := List Bool

/-- Grid cell: `none` = unknown, `some v` = fixed to `v`. -/
abbrev Cell := Option Bool

/-- Scanning loop of `NonogramCreator.extract_clues` (makenonogram.py lines 65-75):
walk the line keeping a run counter, emitting the counter at each falling edge
and once more at the end if positive. -/
def clueScan : List Bool → Nat → List Nat
  | [], count => if 0 < count then [count] else []
  | cell :: rest, count =>
    if cell then clueScan rest (count + 1)
    else if 0 < count then count :: clueScan rest 0
    else clueScan rest 0

/-- Lengths of the maximal filled runs of a line, left to right. -/
def runs (line : List Bool) : List Nat := clueScan line 0

/-- `NonogramCreator.extract_clues` (makenonogram.py lines 60-76): run lengths,
with `[0]` for a line holding no filled cell. -/
def extract_clues (line : List Bool) : List Nat :=
  let cs := runs line
  if cs.isEmpty then [0] else cs

/-- Line assembled from placed `(start, size)` blocks (Nonogram.py lines 61-66):
cell `idx` is filled iff some placed block covers it. -/
def buildLine (length : Nat) (posList : List (Nat × Nat)) : Line :=
  (List.range length).map (fun idx =>
    posList.any (fun p => decide (p.1 ≤ idx) && decide (idx < p.1 + p.2)))

/-- `generate_positions` (Nonogram.py lines 58-81): try every feasible start of the
next block, recursing on the remaining blocks; `posList` accumulates placements.
`max_start = length - sum(current_blocks) - (len(current_blocks) - 1)`, and a
negative `max_start` (empty while loop) is the `length < need` branch. -/
def generate_positions (length : Nat) :
    List (Nat × Nat) → Nat → List Nat → List Line
  | posList, _, [] => [buildLine length posList]
  | posList, pos, block :: rest =>
    let need := (block :: rest).sum + ((block :: rest).length - 1)
    if length < need then []
    else
      (List.range' pos (length - need + 1 - pos)).flatMap (fun start =>
        if posList.all (fun p => decide (p.1 + p.2 ≤ start)) then
          generate_positions length (posList ++ [(start, block)]) (start + block + 1) rest
        else [])

/-- `generate_line_possibilities` (Nonogram.py lines 43-84). -/
def generate_line_possibilities (blocks : List Nat) (length : Nat) : List Line :=
  if blocks.isEmpty then [List.replicate length false]
  else generate_positions length [] 0 blocks

/-- One domain as built by `_generate_domains` (Nonogram.py lines 86-89); the
`set(map(tuple, ...))` conversion is modelled by `dedup`. -/
def domainFor (blocks : List Nat) (length : Nat) : List Line :=
  (generate_line_possibilities blocks length).dedup

/-- Parsed puzzle clues: one block list per row and per column. -/
structure Puzzle where
  rowConstraints : List (List Nat)
  colConstraints : List (List Nat)
deriving DecidableEq

/-- Mutable solver state: grid plus row and column domains
(`Nono_Solver` attributes `grid`, `row_domains`, `col_domains`). -/
structure SState where
  grid : List (List Cell)
  rowDomains : List (List Line)
  colDomains : List (List Line)
deriving DecidableEq

def pheight (p : Puzzle) : Nat := p.rowConstraints.length

def pwidth (p : Puzzle) : Nat := p.colConstraints.length

/-- `Nono_Solver.__init__` (Nonogram.py lines 8-19): all-unknown grid and fresh
domains generated from the clues. -/
def initState (p : Puzzle) : SState :=
  { grid := List.replicate (pheight p) (List.replicate (pwidth p) (none : Cell))
  , rowDomains := p.rowConstraints.map (fun b => domainFor b (pwidth p))
  , colDomains := p.colConstraints.map (fun b => domainFor b (pheight p)) }

/-- A candidate line assignment agrees with every already-fixed cell of its grid
line (Nonogram.py lines 101-105 and 120-124). -/
def agreesLine (gl : List Cell) (a : Line) : Bool :=
  (List.zip gl a).all (fun q => decide (q.1 = none) || decide (q.1 = some q.2))

/-- Filtering sweep over one family of domains (Nonogram.py lines 98-114 and
117-132).  First component: `none` = some filtered domain became empty (the early
`return False`; the offending domain keeps its old value, exactly as the Python
discards `new_domain` there), `some ch` = completed, `ch` = any domain changed. -/
def filterLines : List (List Cell) → List (List Line) → Option Bool × List (List Line)
  | _, [] => (some false, [])
  | [], d :: ds => (some false, d :: ds)
  | gl :: gls, d :: ds =>
    let nd := d.filter (fun a => agreesLine gl a)
    if nd.isEmpty then (none, d :: ds)
    else
      match filterLines gls ds with
      | (none, ds') => (none, nd :: ds')
      | (some ch, ds') => (some (ch || !(decide (nd = d))), nd :: ds')

/-- Column `j` of the grid, as read by `self.grid[i][j]` for `i` in range (the
grid is rectangular throughout). -/
def colLine (g : List (List Cell)) (j : Nat) : List Cell :=
  g.map (fun row => row.getD j none)

/-- The grid's columns, one per column domain (`for j in range(self.width)`). -/
def gridCols (g : List (List Cell)) (w : Nat) : List (List Cell) :=
  (List.range w).map (fun j => colLine g j)

/-- Values position `k` takes across a domain, as the pair
(contains 0/Empty, contains 1/Filled) — the sets built at Nonogram.py
lines 138-139 and 161-162. -/
def valuesAt (dom : List Line) (k : Nat) : Bool × Bool :=
  (dom.any (fun a => !(a.getD k false)), dom.any (fun a => a.getD k false))

/-- Row/column value intersection at cell `(i, j)` (lines 138-140 and 161-163). -/
def cellCommon (s : SState) (i j : Nat) : Bool × Bool :=
  let rv := valuesAt (s.rowDomains.getD i []) j
  let cv := valuesAt (s.colDomains.getD j []) i
  (rv.1 && cv.1, rv.2 && cv.2)

/-- Forced-cell inference for one cell (lines 137-142): an unknown cell whose
intersection holds exactly one value is fixed to it; otherwise left unchanged. -/
def inferCell (s : SState) (i j : Nat) (c : Cell) : Cell :=
  match c with
  | some v => some v
  | none =>
    match cellCommon s i j with
    | (true, false) => some false
    | (false, true) => some true
    | _ => none

/-- Indexed map starting at index `k` (the `for` loops with cell indices). -/
def mapIdxFrom (f : Nat → α → β) : Nat → List α → List β
  | _, [] => []
  | k, a :: l => f k a :: mapIdxFrom f (k + 1) l

/-- Forced-cell inference sweep over the whole grid (lines 134-143).  Each cell's
new value depends only on its own old value and the (unchanging) domains, so the
in-place writes of the Python loop commute into one map. -/
def inferGrid (s : SState) : List (List Cell) :=
  mapIdxFrom (fun i row => mapIdxFrom (fun j c => inferCell s i j c) 0 row) 0 s.grid

/-- One pass of the `while changed` loop of `_update_domains` (lines 93-143):
row filter, then column filter, then forced-cell inference.  `none` =
contradiction (the early `return False`), else `some changed`. -/
def updatePass (s : SState) : Option Bool × SState :=
  match filterLines s.grid s.rowDomains with
  | (none, rds) => (none, { s with rowDomains := rds })
  | (some rch, rds) =>
    let s₁ : SState := { s with rowDomains := rds }
    match filterLines (gridCols s₁.grid s₁.colDomains.length) s₁.colDomains with
    | (none, cds) => (none, { s₁ with colDomains := cds })
    | (some cch, cds) =>
      let s₂ : SState := { s₁ with colDomains := cds }
      let g := inferGrid s₂
      (some (rch || cch || !(decide (g = s₂.grid))), { s₂ with grid := g })

def domSize (ds : List (List Line)) : Nat := (ds.map List.length).sum

def rowNones (row : List Cell) : Nat := row.countP (fun c => decide (c = none))

def noneCount (g : List (List Cell)) : Nat := (g.map rowNones).sum

/-- Termination measure of the propagation loop: total domain size plus number
of unknown cells; every changed pass strictly decreases it. -/
def smeasure (s : SState) : Nat :=
  domSize s.rowDomains + domSize s.colDomains + noneCount s.grid

/-- Propagation loop with an explicit pass counter. -/
def updateGo : Nat → SState → Bool × SState
  | 0, s => (false, s)
  | n + 1, s =>
    match updatePass s with
    | (none, s') => (false, s')
    | (some false, s') => (true, s')
    | (some true, s') => updateGo n s'

/-- `_update_domains` (Nonogram.py lines 91-145): run passes until a pass makes
no change (`True`) or a domain empties (`False`).  `smeasure s + 1` passes always
suffice (`updateGo_congr` / `updateLoop_eq` below). -/
def updateLoop (s : SState) : Bool × SState := updateGo (smeasure s + 1) s

/-- Row-major cell indices of the grid (`for i in range(height) for j in
range(width)`). -/
def cellIndices (s : SState) : List (Nat × Nat) :=
  (List.range s.grid.length).flatMap (fun i =>
    (List.range ((s.grid.getD i []).length)).map (fun j => (i, j)))

/-- Size of a value-intersection pair (`len(common_values)`). -/
def commonSize (c : Bool × Bool) : Nat :=
  (if c.1 then 1 else 0) + (if c.2 then 1 else 0)

/-- One step of the most-constrained-cell scan (Nonogram.py lines 158-167): an
unknown cell replaces the best candidate exactly when its intersection is
strictly smaller (`<` with `min_options` starting at infinity). -/
def bestStep (s : SState) (acc : Option (Nat × Nat × Bool × Bool)) (p : Nat × Nat) :
    Option (Nat × Nat × Bool × Bool) :=
  if (s.grid.getD p.1 []).getD p.2 none = none then
    let c := cellCommon s p.1 p.2
    match acc with
    | none => some (p.1, p.2, c.1, c.2)
    | some (bi, bj, b0, b1) =>
      if commonSize c < commonSize (b0, b1) then some (p.1, p.2, c.1, c.2)
      else some (bi, bj, b0, b1)
  else acc

/-- Most-constrained-cell scan (Nonogram.py lines 153-167): the first unknown
cell, in row-major order, with strictly minimal intersection size, together with
its intersection. -/
def findBest (s : SState) : Option (Nat × Nat × Bool × Bool) :=
  (cellIndices s).foldl (bestStep s) none

/-- Assignment `self.grid[i][j] = c`. -/
def setCell (s : SState) (i j : Nat) (c : Cell) : SState :=
  { s with grid := s.grid.set i ((s.grid.getD i []).set j c) }

/-- `Nono_Solver.solve` (Nonogram.py lines 147-181) with explicit recursion fuel
(`none` = fuel ran out): propagate, pick the most constrained unknown cell, try
candidate value 0 then 1 (CPython's iteration order over a subset of `{0, 1}`),
resetting only the branch cell after a failed attempt. -/
def solveF : Nat → SState → Option (Bool × SState)
  | 0, _ => none
  | n + 1, s =>
    match updateLoop s with
    | (false, s') => some (false, s')
    | (true, s') =>
      match findBest s' with
      | none => some (true, s')
      | some (i, j, c0, c1) =>
        if c0 then
          match solveF n (setCell s' i j (some false)) with
          | none => none
          | some (true, s₁) => some (true, s₁)
          | some (false, s₁) =>
            let s₂ := setCell s₁ i j none
            if c1 then
              match solveF n (setCell s₂ i j (some true)) with
              | none => none
              | some (true, s₃) => some (true, s₃)
              | some (false, s₃) => some (false, setCell s₃ i j none)
            else some (false, s₂)
        else
          if c1 then
            match solveF n (setCell s' i j (some true)) with
            | none => none
            | some (true, s₁) => some (true, s₁)
            | some (false, s₁) => some (false, setCell s₁ i j none)
          else some (false, s')

/-- Fully decoded grid (unknown cells read as empty; used only on full grids). -/
def decodeGrid (g : List (List Cell)) : List (List Bool) :=
  g.map (fun row => row.map (fun c => c.getD false))

/-- Independent solution check: correct shape, and run-length-encoding every row
and column reproduces the clues exactly. -/
def isSolution (p : Puzzle) (g : List (List Bool)) : Bool :=
  decide (g.length = pheight p) &&
  g.all (fun row => decide (row.length = pwidth p)) &&
  decide (g.map runs = p.rowConstraints) &&
  decide ((List.range (pwidth p)).map
      (fun j => runs (g.map (fun row => row.getD j false))) = p.colConstraints)

/-- Example puzzle: 4 rows with clues [1],[1],[2],[1] and 3 columns with clues
[1 1],[2],[1].  It is satisfiable (see `exG3`) but the solver rejects it. -/
def exP3 : Puzzle := ⟨[[1], [1], [2], [1]], [[1, 1], [2], [1]]⟩

/-- A grid satisfying every clue of `exP3`. -/
def exG3 : List (List Bool) :=
  [[true, false, false], [false, true, false], [true, true, false], [false, false, true]]

/-- A grid cell evolves monotonically: it was unknown, or it keeps its value. -/
def CellLe (c c' : Cell) : Prop := c = none ∨ c' = c

/-- Pointwise cell monotonicity between two grids. -/
def GridLe (g g' : List (List Cell)) : Prop :=
  List.Forall₂ (List.Forall₂ CellLe) g g'

/-- Normal form of a line with placed blocks, built left to right from cursor
`c`: empty gap, filled block, recurse. -/
def render (L : Nat) : Nat → List (Nat × Nat) → List Bool
  | c, [] => List.replicate (L - c) false
  | c, (s, b) :: ps =>
    List.replicate (s - c) false ++ (List.replicate b true ++ render L (s + b) ps)

/-- Blocks well placed from cursor `c`: in order, positive, separated by at
least one empty cell, last one ending inside the line. -/
def Placed (L : Nat) : Nat → List (Nat × Nat) → Prop
  | _, [] => True
  | c, (s, b) :: ps => c ≤ s ∧ 0 < b ∧ s + b ≤ L ∧ Placed L (s + b + 1) ps

/-- The state keeps the dimensions fixed at construction: `height` rows of
`width` cells, one domain per row and per column. -/
def Shaped (hh ww : Nat) (s : SState) : Prop :=
  s.grid.length = hh ∧ (∀ r ∈ s.grid, r.length = ww) ∧
  s.rowDomains.length = hh ∧ s.colDomains.length = ww

/-! ### Measure lemmas and the propagation loop equation -/

theorem filter_length_lt_of_ne {α : Type _} (p : α → Bool) (l : List α)
    (h : l.filter p ≠ l) : (l.filter p).length < l.length := by
  rcases Nat.lt_or_ge (l.filter p).length l.length with h' | h'
  · exact h'
  · exact absurd ((List.filter_sublist l).eq_of_length
      (Nat.le_antisymm (List.filter_sublist l).length_le h')) h

theorem domSize_cons (d : List Line) (ds : List (List Line)) :
    domSize (d :: ds) = d.length + domSize ds := by
  simp [domSize]

theorem filterLines_domSize :
    ∀ (gls : List (List Cell)) (ds : List (List Line)),
      domSize (filterLines gls ds).2 ≤ domSize ds := by
  intro gls ds
  induction ds generalizing gls with
  | nil => cases gls <;> simp [filterLines]
  | cons d ds ih =>
    cases gls with
    | nil => simp [filterLines]
    | cons gl gls =>
      have hlen : (d.filter (fun a => agreesLine gl a)).length ≤ d.length :=
        (List.filter_sublist d).length_le
      have htail : domSize (filterLines gls ds).2 ≤ domSize ds := ih gls
      rcases h2 : filterLines gls ds with ⟨r, ds₁⟩
      rw [h2] at htail
      have htail' : domSize ds₁ ≤ domSize ds := htail
      by_cases he : (d.filter (fun a => agreesLine gl a)).isEmpty <;>
        cases r <;>
          simp only [filterLines, h2, he, if_true, if_false, Bool.false_eq_true,
            domSize_cons] <;> omega

theorem filterLines_domSize_lt :
    ∀ (gls : List (List Cell)) (ds : List (List Line)),
      (filterLines gls ds).1 = some true →
      domSize (filterLines gls ds).2 < domSize ds := by
  intro gls ds
  induction ds generalizing gls with
  | nil => cases gls <;> simp [filterLines]
  | cons d ds ih =>
    cases gls with
    | nil => simp [filterLines]
    | cons gl gls =>
      intro hflag
      have hlen : (d.filter (fun a => agreesLine gl a)).length ≤ d.length :=
        (List.filter_sublist d).length_le
      have htail : domSize (filterLines gls ds).2 ≤ domSize ds := filterLines_domSize gls ds
      rcases h2 : filterLines gls ds with ⟨r, ds₁⟩
      rw [h2] at htail
      have htail' : domSize ds₁ ≤ domSize ds := htail
      by_cases he : (d.filter (fun a => agreesLine gl a)).isEmpty
      · simp [filterLines, h2, he] at hflag
      · cases r with
        | none => simp [filterLines, h2, he] at hflag
        | some ch =>
          simp only [filterLines, h2, he, if_false, Bool.false_eq_true,
            Option.some.injEq, Bool.or_eq_true, Bool.not_eq_eq_eq_not, Bool.not_true,
            decide_eq_false_iff_not] at hflag
          simp only [filterLines, h2, he, if_false, Bool.false_eq_true]
          rw [domSize_cons, domSize_cons]
          rcases hflag with hch | hne
          · have hlt := ih gls
            rw [h2] at hlt
            have hlt' : domSize ds₁ < domSize ds := hlt (by rw [hch])
            omega
          · have := filter_length_lt_of_ne (fun a => agreesLine gl a) d hne
            omega

theorem filterLines_nochange :
    ∀ (gls : List (List Cell)) (ds : List (List Line)),
      (filterLines gls ds).1 = some false → (filterLines gls ds).2 = ds := by
  intro gls ds
  induction ds generalizing gls with
  | nil => cases gls <;> simp [filterLines]
  | cons d ds ih =>
    cases gls with
    | nil => simp [filterLines]
    | cons gl gls =>
      intro hflag
      rcases h2 : filterLines gls ds with ⟨r, ds₁⟩
      by_cases he : (d.filter (fun a => agreesLine gl a)).isEmpty
      · simp [filterLines, h2, he] at hflag
      · cases r with
        | none => simp [filterLines, h2, he] at hflag
        | some ch =>
          simp only [filterLines, h2, he, if_false, Bool.false_eq_true,
            Option.some.injEq, Bool.or_eq_false_iff, Bool.not_eq_eq_eq_not,
            Bool.not_false, decide_eq_true_eq] at hflag
          rcases hflag with ⟨hch, hnd⟩
          have htl := ih gls
          rw [h2] at htl
          have htl' : ds₁ = ds := htl (by rw [hch])
          have hgoal : (filterLines (gl :: gls) (d :: ds)).2 =
              (d.filter (fun a => agreesLine gl a)) :: ds₁ := by
            simp only [filterLines, h2, he, if_false, Bool.false_eq_true]
          rw [hgoal, hnd, htl']

theorem filterLines_sublist :
    ∀ (gls : List (List Cell)) (ds : List (List Line)),
      List.Forall₂ (fun a b => List.Sublist a b) (filterLines gls ds).2 ds := by
  intro gls ds
  induction ds generalizing gls with
  | nil => cases gls <;> simp [filterLines]
  | cons d ds ih =>
    cases gls with
    | nil =>
      simp only [filterLines]
      exact List.forall₂_same.mpr (fun a _ => List.Sublist.refl a)
    | cons gl gls =>
      rcases h2 : filterLines gls ds with ⟨r, ds₁⟩
      have htail := ih gls
      rw [h2] at htail
      by_cases he : (d.filter (fun a => agreesLine gl a)).isEmpty
      · simp only [filterLines, h2, he, if_true]
        exact List.forall₂_same.mpr (fun a _ => List.Sublist.refl a)
      · cases r <;>
          · simp only [filterLines, h2, he, if_false, Bool.false_eq_true]
            exact List.Forall₂.cons (List.filter_sublist d) htail

/-! ### Cell and grid monotonicity -/

theorem cellLe_refl (c : Cell) : CellLe c c := Or.inr (Eq.refl c)

theorem cellLe_trans {a b c : Cell} (h1 : CellLe a b) (h2 : CellLe b c) : CellLe a c := by
  rcases h1 with h1 | h1
  · exact Or.inl h1
  · subst h1
    exact h2

theorem gridLe_refl (g : List (List Cell)) : GridLe g g :=
  List.forall₂_same.mpr (fun r _ => List.forall₂_same.mpr (fun c _ => cellLe_refl c))

theorem forall₂_trans {α : Type _} (R : α → α → Prop)
    (h : ∀ a b c, R a b → R b c → R a c) :
    ∀ {l m n : List α}, List.Forall₂ R l m → List.Forall₂ R m n → List.Forall₂ R l n := by
  intro l m n h1 h2
  induction h1 generalizing n with
  | nil => cases h2; exact List.Forall₂.nil
  | cons hab h1 ih =>
    cases h2 with
    | cons hbc h2 => exact List.Forall₂.cons (h _ _ _ hab hbc) (ih h2)

theorem gridLe_trans {g₁ g₂ g₃ : List (List Cell)}
    (h1 : GridLe g₁ g₂) (h2 : GridLe g₂ g₃) : GridLe g₁ g₃ :=
  forall₂_trans (List.Forall₂ CellLe) (fun _ _ _ ha hb =>
    forall₂_trans CellLe (fun _ _ _ hc hd => cellLe_trans hc hd) ha hb) h1 h2

theorem mapIdxFrom_forall₂ {α β : Type _} {R : α → β → Prop} (f : Nat → α → β)
    (hf : ∀ k a, R a (f k a)) :
    ∀ (l : List α) (k : Nat), List.Forall₂ R l (mapIdxFrom f k l) := by
  intro l
  induction l with
  | nil => intro k; exact List.Forall₂.nil
  | cons a l ih => intro k; exact List.Forall₂.cons (hf k a) (ih (k + 1))

theorem inferCell_celle (s : SState) (i j : Nat) (c : Cell) :
    CellLe c (inferCell s i j c) := by
  cases c with
  | none => exact Or.inl rfl
  | some v => exact Or.inr rfl

theorem inferGrid_gridle (s : SState) : GridLe s.grid (inferGrid s) :=
  mapIdxFrom_forall₂ _
    (fun _ row => mapIdxFrom_forall₂ _ (fun j c => inferCell_celle s _ j c) row 0)
    s.grid 0

theorem rowNones_cons (c : Cell) (row : List Cell) :
    rowNones (c :: row) = rowNones row + (if c = none then 1 else 0) := by
  simp [rowNones, List.countP_cons]

theorem noneCount_cons (r : List Cell) (g : List (List Cell)) :
    noneCount (r :: g) = rowNones r + noneCount g := by
  simp [noneCount]

theorem rowNones_of_celle {row row' : List Cell}
    (h : List.Forall₂ CellLe row row') :
    rowNones row' ≤ rowNones row ∧ (row' ≠ row → rowNones row' < rowNones row) := by
  induction h with
  | nil => simp
  | @cons a b l l' hc _ ih =>
    rw [rowNones_cons, rowNones_cons]
    by_cases hba : b = a
    · subst hba
      constructor
      · omega
      · intro hne
        have : l' ≠ l := by
          intro hl
          exact hne (by rw [hl])
        have := ih.2 this
        omega
    · have ha : a = none := by
        rcases hc with h | h
        · exact h
        · exact absurd h hba
      have hb : ¬ b = none := by
        intro hbn
        exact hba (hbn.trans ha.symm)
      constructor
      · simp only [ha, hb, if_true, if_false]
        omega
      · intro _
        simp only [ha, hb, if_true, if_false]
        omega

theorem noneCount_of_gridle {g g' : List (List Cell)} (h : GridLe g g') :
    noneCount g' ≤ noneCount g ∧ (g' ≠ g → noneCount g' < noneCount g) := by
  induction h with
  | nil => simp
  | @cons r r' l l' hr _ ih =>
    rw [noneCount_cons, noneCount_cons]
    have hrow := rowNones_of_celle hr
    by_cases hrr : r' = r
    · subst hrr
      constructor
      · omega
      · intro hne
        have : l' ≠ l := by
          intro hl
          exact hne (by rw [hl])
        have := ih.2 this
        omega
    · constructor
      · omega
      · intro _
        have := hrow.2 hrr
        omega

/-! ### Dissecting one propagation pass -/

theorem updatePass_some_elim {s s' : SState} {ch : Bool}
    (h : updatePass s = (some ch, s')) :
    ∃ rch cch rds cds,
      filterLines s.grid s.rowDomains = (some rch, rds) ∧
      filterLines (gridCols s.grid s.colDomains.length) s.colDomains = (some cch, cds) ∧
      s' = { grid := inferGrid { grid := s.grid, rowDomains := rds, colDomains := cds },
             rowDomains := rds, colDomains := cds } ∧
      ch = (rch || cch ||
        !(decide (inferGrid { grid := s.grid, rowDomains := rds, colDomains := cds } = s.grid))) := by
  unfold updatePass at h
  rcases h1 : filterLines s.grid s.rowDomains with ⟨r1, rds⟩
  rw [h1] at h
  cases r1 with
  | none => simp at h
  | some rch =>
    dsimp only at h
    rcases h2 : filterLines (gridCols s.grid s.colDomains.length) s.colDomains with ⟨r2, cds⟩
    rw [h2] at h
    cases r2 with
    | none => simp at h
    | some cch =>
      dsimp only at h
      rw [Prod.mk.injEq] at h
      exact ⟨rch, cch, rds, cds, rfl, rfl, h.2.symm, (Option.some.inj h.1).symm⟩

theorem updatePass_none_elim {s s' : SState}
    (h : updatePass s = (none, s')) :
    (∃ rds, filterLines s.grid s.rowDomains = (none, rds) ∧
      s' = { grid := s.grid, rowDomains := rds, colDomains := s.colDomains }) ∨
    (∃ rch rds cds,
      filterLines s.grid s.rowDomains = (some rch, rds) ∧
      filterLines (gridCols s.grid s.colDomains.length) s.colDomains = (none, cds) ∧
      s' = { grid := s.grid, rowDomains := rds, colDomains := cds }) := by
  unfold updatePass at h
  rcases h1 : filterLines s.grid s.rowDomains with ⟨r1, rds⟩
  rw [h1] at h
  cases r1 with
  | none =>
    dsimp only at h
    rw [Prod.mk.injEq] at h
    exact Or.inl ⟨rds, rfl, h.2.symm⟩
  | some rch =>
    dsimp only at h
    rcases h2 : filterLines (gridCols s.grid s.colDomains.length) s.colDomains with ⟨r2, cds⟩
    rw [h2] at h
    cases r2 with
    | none =>
      dsimp only at h
      rw [Prod.mk.injEq] at h
      exact Or.inr ⟨rch, rds, cds, rfl, rfl, h.2.symm⟩
    | some cch => simp at h

theorem updatePass_measure_le {s s' : SState} {ch : Bool}
    (h : updatePass s = (some ch, s')) : smeasure s' ≤ smeasure s := by
  rcases updatePass_some_elim h with ⟨rch, cch, rds, cds, h1, h2, hs, -⟩
  have hr := filterLines_domSize s.grid s.rowDomains
  rw [h1] at hr
  have hc := filterLines_domSize (gridCols s.grid s.colDomains.length) s.colDomains
  rw [h2] at hc
  have hg := (noneCount_of_gridle (inferGrid_gridle
    { grid := s.grid, rowDomains := rds, colDomains := cds })).1
  subst hs
  simp only [smeasure]
  dsimp only at hr hc hg
  omega

theorem updatePass_measure_lt {s s' : SState}
    (h : updatePass s = (some true, s')) : smeasure s' < smeasure s := by
  rcases updatePass_some_elim h with ⟨rch, cch, rds, cds, h1, h2, hs, hch⟩
  have hr := filterLines_domSize s.grid s.rowDomains
  rw [h1] at hr
  have hc := filterLines_domSize (gridCols s.grid s.colDomains.length) s.colDomains
  rw [h2] at hc
  have hgle := (noneCount_of_gridle (inferGrid_gridle
    { grid := s.grid, rowDomains := rds, colDomains := cds }))
  have : rch = true ∨ cch = true ∨
      inferGrid { grid := s.grid, rowDomains := rds, colDomains := cds } ≠ s.grid := by
    rcases Bool.or_eq_true_iff.mp hch.symm with h3 | h3
    · rcases Bool.or_eq_true_iff.mp h3 with h4 | h4
      · exact Or.inl h4
      · exact Or.inr (Or.inl h4)
    · refine Or.inr (Or.inr ?_)
      intro heq
      rw [heq] at h3
      simp at h3
  subst hs
  simp only [smeasure]
  dsimp only at hr hc hgle
  rcases this with h3 | h3 | h3
  · have := filterLines_domSize_lt s.grid s.rowDomains (by rw [h1, h3])
    rw [h1] at this
    dsimp only at this
    omega
  · have := filterLines_domSize_lt (gridCols s.grid s.colDomains.length) s.colDomains
      (by rw [h2, h3])
    rw [h2] at this
    dsimp only at this
    omega
  · have := hgle.2 h3
    omega

theorem updatePass_false_eq {s s' : SState}
    (h : updatePass s = (some false, s')) : s' = s := by
  rcases updatePass_some_elim h with ⟨rch, cch, rds, cds, h1, h2, hs, hch⟩
  have hrch : rch = false := by
    cases rch
    · rfl
    · simp at hch
  have hcch : cch = false := by
    cases cch
    · rfl
    · rw [hrch] at hch
      simp at hch
  have hgeq : inferGrid { grid := s.grid, rowDomains := rds, colDomains := cds } = s.grid := by
    rw [hrch, hcch] at hch
    simp only [Bool.false_or] at hch
    have := hch.symm
    simp only [Bool.not_eq_false', decide_eq_true_eq] at this
    exact this
  have hrds : rds = s.rowDomains := by
    have := filterLines_nochange s.grid s.rowDomains
    rw [h1, hrch] at this
    exact this rfl
  have hcds : cds = s.colDomains := by
    have := filterLines_nochange (gridCols s.grid s.colDomains.length) s.colDomains
    rw [h2, hcch] at this
    exact this rfl
  rw [hs, hgeq, hrds, hcds]

/-! ### The propagation loop equation -/

theorem updateGo_congr :
    ∀ (n m : Nat) (s : SState), smeasure s < n → smeasure s < m →
      updateGo n s = updateGo m s := by
  intro n
  induction n with
  | zero => intro m s h _; omega
  | succ n ih =>
    intro m s hn hm
    cases m with
    | zero => omega
    | succ m =>
      simp only [updateGo]
      rcases hp : updatePass s with ⟨r, s'⟩
      cases r with
      | none => rfl
      | some ch =>
        cases ch with
        | false => rfl
        | true =>
          have hlt := updatePass_measure_lt hp
          exact ih m s' (by omega) (by omega)

theorem updateLoop_eq (s : SState) :
    updateLoop s =
      match updatePass s with
      | (none, s') => (false, s')
      | (some false, s') => (true, s')
      | (some true, s') => updateLoop s' := by
  unfold updateLoop
  simp only [updateGo]
  rcases hp : updatePass s with ⟨r, s'⟩
  cases r with
  | none => rfl
  | some ch =>
    cases ch with
    | false => rfl
    | true =>
      have hlt := updatePass_measure_lt hp
      exact updateGo_congr (smeasure s) (smeasure s' + 1) s' (by omega) (by omega)

/-! ### Monotonicity of the pass, the loop and the search -/

theorem sublists_refl (ds : List (List Line)) :
    List.Forall₂ (fun a b => List.Sublist a b) ds ds :=
  List.forall₂_same.mpr (fun a _ => List.Sublist.refl a)

theorem sublists_trans {a b c : List (List Line)}
    (h1 : List.Forall₂ (fun a b => List.Sublist a b) a b)
    (h2 : List.Forall₂ (fun a b => List.Sublist a b) b c) :
    List.Forall₂ (fun a b => List.Sublist a b) a c :=
  forall₂_trans (fun a b => List.Sublist a b)
    (fun _ _ _ ha hb => List.Sublist.trans ha hb) h1 h2

theorem updatePass_mono {s : SState} {r : Option Bool} {s' : SState}
    (h : updatePass s = (r, s')) :
    List.Forall₂ (fun a b => List.Sublist a b) s'.rowDomains s.rowDomains ∧
    List.Forall₂ (fun a b => List.Sublist a b) s'.colDomains s.colDomains ∧
    GridLe s.grid s'.grid := by
  cases r with
  | some ch =>
    rcases updatePass_some_elim h with ⟨rch, cch, rds, cds, h1, h2, hs, -⟩
    have hr := filterLines_sublist s.grid s.rowDomains
    rw [h1] at hr
    have hc := filterLines_sublist (gridCols s.grid s.colDomains.length) s.colDomains
    rw [h2] at hc
    have hg := inferGrid_gridle { grid := s.grid, rowDomains := rds, colDomains := cds }
    subst hs
    exact ⟨hr, hc, hg⟩
  | none =>
    rcases updatePass_none_elim h with ⟨rds, h1, hs⟩ | ⟨rch, rds, cds, h1, h2, hs⟩
    · have hr := filterLines_sublist s.grid s.rowDomains
      rw [h1] at hr
      subst hs
      exact ⟨hr, sublists_refl _, gridLe_refl _⟩
    · have hr := filterLines_sublist s.grid s.rowDomains
      rw [h1] at hr
      have hc := filterLines_sublist (gridCols s.grid s.colDomains.length) s.colDomains
      rw [h2] at hc
      subst hs
      exact ⟨hr, hc, gridLe_refl _⟩

theorem updateLoop_mono_aux :
    ∀ (N : Nat) (s : SState), smeasure s ≤ N → ∀ (b : Bool) (s' : SState),
      updateLoop s = (b, s') →
      List.Forall₂ (fun a b => List.Sublist a b) s'.rowDomains s.rowDomains ∧
      List.Forall₂ (fun a b => List.Sublist a b) s'.colDomains s.colDomains ∧
      GridLe s.grid s'.grid := by
  intro N
  induction N with
  | zero =>
    intro s hN b s' h
    rw [updateLoop_eq] at h
    rcases hp : updatePass s with ⟨r, s₀⟩
    rw [hp] at h
    have hmono := updatePass_mono hp
    cases r with
    | none =>
      rw [Prod.mk.injEq] at h
      rw [← h.2]
      exact hmono
    | some ch =>
      cases ch with
      | false =>
        rw [Prod.mk.injEq] at h
        rw [← h.2]
        exact hmono
      | true =>
        have := updatePass_measure_lt hp
        omega
  | succ N ih =>
    intro s hN b s' h
    rw [updateLoop_eq] at h
    rcases hp : updatePass s with ⟨r, s₀⟩
    rw [hp] at h
    have hmono := updatePass_mono hp
    cases r with
    | none =>
      rw [Prod.mk.injEq] at h
      rw [← h.2]
      exact hmono
    | some ch =>
      cases ch with
      | false =>
        rw [Prod.mk.injEq] at h
        rw [← h.2]
        exact hmono
      | true =>
        have hlt := updatePass_measure_lt hp
        have hrec := ih s₀ (by omega) b s' h
        exact ⟨sublists_trans hrec.1 hmono.1, sublists_trans hrec.2.1 hmono.2.1,
          gridLe_trans hmono.2.2 hrec.2.2⟩

theorem updateLoop_mono {s : SState} {b : Bool} {s' : SState}
    (h : updateLoop s = (b, s')) :
    List.Forall₂ (fun a b => List.Sublist a b) s'.rowDomains s.rowDomains ∧
    List.Forall₂ (fun a b => List.Sublist a b) s'.colDomains s.colDomains ∧
    GridLe s.grid s'.grid :=
  updateLoop_mono_aux (smeasure s) s (Nat.le_refl _) b s' h

/-! ### The loop at a fixpoint -/

theorem updateLoop_exit_aux :
    ∀ (N : Nat) (s : SState), smeasure s ≤ N → ∀ (s' : SState),
      updateLoop s = (true, s') → updatePass s' = (some false, s') := by
  intro N
  induction N with
  | zero =>
    intro s hN s' h
    rw [updateLoop_eq] at h
    rcases hp : updatePass s with ⟨r, s₀⟩
    rw [hp] at h
    cases r with
    | none => simp at h
    | some ch =>
      cases ch with
      | false =>
        rw [Prod.mk.injEq] at h
        have hse := updatePass_false_eq hp
        rw [← h.2, hse]
        rw [hse] at hp
        exact hp
      | true =>
        have := updatePass_measure_lt hp
        omega
  | succ N ih =>
    intro s hN s' h
    rw [updateLoop_eq] at h
    rcases hp : updatePass s with ⟨r, s₀⟩
    rw [hp] at h
    cases r with
    | none => simp at h
    | some ch =>
      cases ch with
      | false =>
        rw [Prod.mk.injEq] at h
        have hse := updatePass_false_eq hp
        rw [← h.2, hse]
        rw [hse] at hp
        exact hp
      | true =>
        have hlt := updatePass_measure_lt hp
        exact ih s₀ (by omega) s' h

theorem updateLoop_exit {s s' : SState} (h : updateLoop s = (true, s')) :
    updatePass s' = (some false, s') :=
  updateLoop_exit_aux (smeasure s) s (Nat.le_refl _) s' h

theorem updateLoop_fix {s s' : SState} (h : updateLoop s = (true, s')) :
    updateLoop s' = (true, s') := by
  have hp := updateLoop_exit h
  rw [updateLoop_eq, hp]

/-! ### Monotonicity and the leaf shape of the fueled search -/

theorem setCell_rowDomains (s : SState) (i j : Nat) (c : Cell) :
    (setCell s i j c).rowDomains = s.rowDomains := rfl

theorem setCell_colDomains (s : SState) (i j : Nat) (c : Cell) :
    (setCell s i j c).colDomains = s.colDomains := rfl

theorem solveF_domains :
    ∀ (n : Nat) (s : SState) (b : Bool) (s' : SState), solveF n s = some (b, s') →
      List.Forall₂ (fun a b => List.Sublist a b) s'.rowDomains s.rowDomains ∧
      List.Forall₂ (fun a b => List.Sublist a b) s'.colDomains s.colDomains := by
  intro n
  induction n with
  | zero =>
    intro s b s' h
    simp [solveF] at h
  | succ n ih =>
    intro s b s' h
    rw [solveF] at h
    rcases hl : updateLoop s with ⟨lb, s₀⟩
    rw [hl] at h
    have hm₀ := updateLoop_mono hl
    cases lb with
    | false =>
      rw [Option.some.injEq, Prod.mk.injEq] at h
      rw [← h.2]
      exact ⟨hm₀.1, hm₀.2.1⟩
    | true =>
      dsimp only at h
      rcases hf : findBest s₀ with - | ⟨i, j, c0, c1⟩
      · rw [hf] at h
        rw [Option.some.injEq, Prod.mk.injEq] at h
        rw [← h.2]
        exact ⟨hm₀.1, hm₀.2.1⟩
      · rw [hf] at h
        dsimp only at h
        cases c0 with
        | true =>
          rw [if_pos rfl] at h
          rcases hr1 : solveF n (setCell s₀ i j (some false)) with - | ⟨b₁, s₁⟩
          · rw [hr1] at h
            exact absurd h (by simp)
          · rw [hr1] at h
            have hm₁ := ih _ _ _ hr1
            rw [setCell_rowDomains, setCell_colDomains] at hm₁
            cases b₁ with
            | true =>
              rw [Option.some.injEq, Prod.mk.injEq] at h
              rw [← h.2]
              exact ⟨sublists_trans hm₁.1 hm₀.1, sublists_trans hm₁.2 hm₀.2.1⟩
            | false =>
              dsimp only at h
              cases c1 with
              | true =>
                rw [if_pos rfl] at h
                rcases hr2 : solveF n (setCell (setCell s₁ i j none) i j (some true))
                    with - | ⟨b₂, s₃⟩
                · rw [hr2] at h
                  exact absurd h (by simp)
                · rw [hr2] at h
                  have hm₂ := ih _ _ _ hr2
                  rw [setCell_rowDomains, setCell_colDomains,
                    setCell_rowDomains, setCell_colDomains] at hm₂
                  cases b₂ with
                  | true =>
                    rw [Option.some.injEq, Prod.mk.injEq] at h
                    rw [← h.2]
                    exact ⟨sublists_trans (sublists_trans hm₂.1 hm₁.1) hm₀.1,
                      sublists_trans (sublists_trans hm₂.2 hm₁.2) hm₀.2.1⟩
                  | false =>
                    rw [Option.some.injEq, Prod.mk.injEq] at h
                    rw [← h.2, setCell_rowDomains, setCell_colDomains]
                    exact ⟨sublists_trans (sublists_trans hm₂.1 hm₁.1) hm₀.1,
                      sublists_trans (sublists_trans hm₂.2 hm₁.2) hm₀.2.1⟩
              | false =>
                rw [if_neg (by simp)] at h
                rw [Option.some.injEq, Prod.mk.injEq] at h
                rw [← h.2, setCell_rowDomains, setCell_colDomains]
                exact ⟨sublists_trans hm₁.1 hm₀.1, sublists_trans hm₁.2 hm₀.2.1⟩
        | false =>
          rw [if_neg (by simp)] at h
          cases c1 with
          | true =>
            rw [if_pos rfl] at h
            rcases hr1 : solveF n (setCell s₀ i j (some true)) with - | ⟨b₁, s₁⟩
            · rw [hr1] at h
              exact absurd h (by simp)
            · rw [hr1] at h
              have hm₁ := ih _ _ _ hr1
              rw [setCell_rowDomains, setCell_colDomains] at hm₁
              cases b₁ with
              | true =>
                rw [Option.some.injEq, Prod.mk.injEq] at h
                rw [← h.2]
                exact ⟨sublists_trans hm₁.1 hm₀.1, sublists_trans hm₁.2 hm₀.2.1⟩
              | false =>
                rw [Option.some.injEq, Prod.mk.injEq] at h
                rw [← h.2, setCell_rowDomains, setCell_colDomains]
                exact ⟨sublists_trans hm₁.1 hm₀.1, sublists_trans hm₁.2 hm₀.2.1⟩
          | false =>
            rw [if_neg (by simp)] at h
            rw [Option.some.injEq, Prod.mk.injEq] at h
            rw [← h.2]
            exact ⟨hm₀.1, hm₀.2.1⟩

theorem solveF_true_leaf :
    ∀ (n : Nat) (s : SState) (s' : SState), solveF n s = some (true, s') →
      updatePass s' = (some false, s') ∧ findBest s' = none := by
  intro n
  induction n with
  | zero =>
    intro s s' h
    simp [solveF] at h
  | succ n ih =>
    intro s s' h
    rw [solveF] at h
    rcases hl : updateLoop s with ⟨lb, s₀⟩
    rw [hl] at h
    cases lb with
    | false => simp at h
    | true =>
      dsimp only at h
      rcases hf : findBest s₀ with - | ⟨i, j, c0, c1⟩
      · rw [hf] at h
        rw [Option.some.injEq, Prod.mk.injEq] at h
        rw [← h.2]
        exact ⟨updateLoop_exit hl, hf⟩
      · rw [hf] at h
        dsimp only at h
        cases c0 with
        | true =>
          rw [if_pos rfl] at h
          rcases hr1 : solveF n (setCell s₀ i j (some false)) with - | ⟨b₁, s₁⟩
          · rw [hr1] at h
            exact absurd h (by simp)
          · rw [hr1] at h
            cases b₁ with
            | true =>
              rw [Option.some.injEq, Prod.mk.injEq] at h
              rw [← h.2]
              exact ih _ _ hr1
            | false =>
              dsimp only at h
              cases c1 with
              | true =>
                rw [if_pos rfl] at h
                rcases hr2 : solveF n (setCell (setCell s₁ i j none) i j (some true))
                    with - | ⟨b₂, s₃⟩
                · rw [hr2] at h
                  exact absurd h (by simp)
                · rw [hr2] at h
                  cases b₂ with
                  | true =>
                    rw [Option.some.injEq, Prod.mk.injEq] at h
                    rw [← h.2]
                    exact ih _ _ hr2
                  | false => simp at h
              | false =>
                rw [if_neg (by simp)] at h
                simp at h
        | false =>
          rw [if_neg (by simp)] at h
          cases c1 with
          | true =>
            rw [if_pos rfl] at h
            rcases hr1 : solveF n (setCell s₀ i j (some true)) with - | ⟨b₁, s₁⟩
            · rw [hr1] at h
              exact absurd h (by simp)
            · rw [hr1] at h
              cases b₁ with
              | true =>
                rw [Option.some.injEq, Prod.mk.injEq] at h
                rw [← h.2]
                exact ih _ _ hr1
              | false => simp at h
          | false =>
            rw [if_neg (by simp)] at h
            simp at h

/-! ### Shape of generated lines -/

theorem placed_mono {L c c' : Nat} {ps : List (Nat × Nat)}
    (h : Placed L c' ps) (hc : c ≤ c') : Placed L c ps := by
  cases ps with
  | nil => trivial
  | cons p ps =>
    rcases p with ⟨s, b⟩
    rcases h with ⟨h1, h2, h3, h4⟩
    exact ⟨by omega, h2, h3, h4⟩

theorem clueScan_replicate_false_zero (k : Nat) :
    clueScan (List.replicate k false) 0 = [] := by
  induction k with
  | zero => simp [clueScan]
  | succ k ih => simp [List.replicate_succ, clueScan, ih]

theorem clueScan_false_append (k : Nat) (l : List Bool) :
    clueScan (List.replicate k false ++ l) 0 = clueScan l 0 := by
  induction k with
  | zero => simp
  | succ k ih => simp [List.replicate_succ, clueScan, ih]

theorem clueScan_true_append (b : Nat) (l : List Bool) :
    ∀ c : Nat, clueScan (List.replicate b true ++ l) c = clueScan l (c + b) := by
  induction b with
  | zero => intro c; simp
  | succ b ih =>
    intro c
    rw [List.replicate_succ]
    show clueScan (true :: (List.replicate b true ++ l)) c = _
    rw [clueScan, if_pos rfl, ih (c + 1)]
    congr 1
    omega

theorem clueScan_replicate_false_pos (k m : Nat) (hm : 0 < m) :
    clueScan (List.replicate k false) m = [m] := by
  cases k with
  | zero => simp [clueScan, hm]
  | succ k =>
    rw [List.replicate_succ]
    show clueScan (false :: List.replicate k false) m = [m]
    rw [clueScan]
    simp [hm, clueScan_replicate_false_zero]

theorem clueScan_false_cons (l : List Bool) {m : Nat} (hm : 0 < m) :
    clueScan (false :: l) m = m :: clueScan l 0 := by
  rw [clueScan]
  simp [hm]

theorem clueScan_render_pos :
    ∀ (ps : List (Nat × Nat)) (L c m : Nat), Placed L (c + 1) ps → 0 < m →
      clueScan (render L c ps) m = m :: ps.map Prod.snd := by
  intro ps
  induction ps with
  | nil =>
    intro L c m _ hm
    exact clueScan_replicate_false_pos _ m hm
  | cons p ps ih =>
    rcases p with ⟨s, b⟩
    intro L c m hp hm
    rcases hp with ⟨hcs, hb, hsb, hps⟩
    show clueScan (List.replicate (s - c) false ++ (List.replicate b true ++ render L (s + b) ps)) m
        = m :: ((s, b) :: ps).map Prod.snd
    have h1 : s - c = (s - c - 1) + 1 := by omega
    rw [h1, List.replicate_succ, List.cons_append, clueScan_false_cons _ hm,
      clueScan_false_append, clueScan_true_append, Nat.zero_add,
      ih L (s + b) b hps hb]
    simp

theorem clueScan_render :
    ∀ (ps : List (Nat × Nat)) (L c : Nat), Placed L c ps →
      clueScan (render L c ps) 0 = ps.map Prod.snd := by
  intro ps L c hp
  cases ps with
  | nil => exact clueScan_replicate_false_zero _
  | cons p ps =>
    rcases p with ⟨s, b⟩
    rcases hp with ⟨hcs, hb, hsb, hps⟩
    show clueScan (List.replicate (s - c) false ++ (List.replicate b true ++ render L (s + b) ps)) 0
        = ((s, b) :: ps).map Prod.snd
    rw [clueScan_false_append, clueScan_true_append, Nat.zero_add,
      clueScan_render_pos ps L (s + b) b hps hb]
    simp

theorem cover_eq_false_of_lt :
    ∀ (ps : List (Nat × Nat)) (L c idx : Nat), Placed L c ps → idx < c →
      ps.any (fun p => decide (p.1 ≤ idx) && decide (idx < p.1 + p.2)) = false := by
  intro ps
  induction ps with
  | nil => intro L c idx _ _; rfl
  | cons p ps ih =>
    rcases p with ⟨s, b⟩
    intro L c idx hp hidx
    rcases hp with ⟨hcs, hb, hsb, hps⟩
    simp only [List.any_cons, Bool.or_eq_false_iff]
    constructor
    · have : ¬ s ≤ idx := by omega
      simp [this]
    · exact ih L (s + b + 1) idx hps (by omega)

theorem range'_split (s m n : Nat) :
    List.range' s (m + n) = List.range' s m ++ List.range' (s + m) n := by
  have h := List.range'_append s m n 1
  rw [Nat.one_mul] at h
  rw [Nat.add_comm m n]
  exact h.symm

theorem map_cover_render :
    ∀ (ps : List (Nat × Nat)) (L c : Nat), Placed L c ps →
      (List.range' c (L - c)).map
        (fun idx => ps.any (fun p => decide (p.1 ≤ idx) && decide (idx < p.1 + p.2)))
        = render L c ps := by
  intro ps
  induction ps with
  | nil =>
    intro L c _
    show _ = List.replicate (L - c) false
    rw [List.eq_replicate_iff]
    constructor
    · simp
    · intro x hx
      rcases List.mem_map.mp hx with ⟨idx, -, hval⟩
      simpa using hval.symm
  | cons p ps ih =>
    rcases p with ⟨s, b⟩
    intro L c hp
    rcases hp with ⟨hcs, hb, hsb, hps⟩
    have hsplit : L - c = (s - c) + (b + (L - (s + b))) := by omega
    rw [hsplit, range'_split, range'_split]
    have hcsc : c + (s - c) = s := by omega
    rw [hcsc, List.map_append, List.map_append]
    show _ = List.replicate (s - c) false ++ (List.replicate b true ++ render L (s + b) ps)
    congr 1
    · rw [List.eq_replicate_iff]
      constructor
      · simp
      · intro x hx
        rcases List.mem_map.mp hx with ⟨idx, hidx, hval⟩
        rcases List.mem_range'_1.mp hidx with ⟨-, hlt⟩
        rw [hcsc] at hlt
        rw [← hval]
        simp only [List.any_cons, Bool.or_eq_false_iff]
        constructor
        · have : ¬ s ≤ idx := by omega
          simp [this]
        · exact cover_eq_false_of_lt ps L (s + b + 1) idx hps (by omega)
    congr 1
    · rw [List.eq_replicate_iff]
      constructor
      · simp
      · intro x hx
        rcases List.mem_map.mp hx with ⟨idx, hidx, hval⟩
        rcases List.mem_range'_1.mp hidx with ⟨hge, hlt⟩
        rw [← hval]
        simp only [List.any_cons]
        have h1 : s ≤ idx := hge
        have h2 : idx < s + b := hlt
        simp [h1, h2]
    · have hmap : (List.range' (s + b) (L - (s + b))).map
          (fun idx => ((s, b) :: ps).any (fun p => decide (p.1 ≤ idx) && decide (idx < p.1 + p.2)))
          = (List.range' (s + b) (L - (s + b))).map
          (fun idx => ps.any (fun p => decide (p.1 ≤ idx) && decide (idx < p.1 + p.2))) := by
        apply List.map_congr_left
        intro idx hidx
        rcases List.mem_range'_1.mp hidx with ⟨hge, -⟩
        simp only [List.any_cons]
        have : ¬ idx < s + b := by omega
        simp [this]
      rw [hmap]
      exact ih L (s + b) (placed_mono hps (by omega))

theorem buildLine_eq_render {L : Nat} {ps : List (Nat × Nat)} (h : Placed L 0 ps) :
    buildLine L ps = render L 0 ps := by
  unfold buildLine
  rw [List.range_eq_range']
  have hmain := map_cover_render ps L 0 h
  rw [Nat.sub_zero] at hmain
  exact hmain

theorem buildLine_length (L : Nat) (ps : List (Nat × Nat)) :
    (buildLine L ps).length = L := by
  simp [buildLine]

/-! ### Membership in the generator output -/

theorem generate_positions_mem :
    ∀ (blocks : List Nat) (ps : List (Nat × Nat)) (pos L : Nat) (l : Line),
      (∀ b ∈ blocks, 0 < b) →
      l ∈ generate_positions L ps pos blocks →
      ∃ tail, l = buildLine L (ps ++ tail) ∧ tail.map Prod.snd = blocks ∧
        Placed L pos tail := by
  intro blocks
  induction blocks with
  | nil =>
    intro ps pos L l _ hl
    simp only [generate_positions, List.mem_singleton] at hl
    exact ⟨[], by simpa using hl, rfl, trivial⟩
  | cons block rest ih =>
    intro ps pos L l hpos hl
    simp only [generate_positions] at hl
    by_cases hfit : L < (block :: rest).sum + ((block :: rest).length - 1)
    · simp at hl
      have hsum1 : (block :: rest).sum = block + rest.sum := by simp
      have hlen1 : (block :: rest).length - 1 = rest.length := by simp
      rw [hsum1, hlen1] at hfit
      have h1 := hl.1
      omega
    · rw [if_neg hfit] at hl
      rcases List.mem_flatMap.mp hl with ⟨start, hstart, hin⟩
      by_cases hguard : ps.all (fun p => decide (p.1 + p.2 ≤ start))
      · rw [if_pos hguard] at hin
        rcases ih (ps ++ [(start, block)]) (start + block + 1) L l
            (fun b hb => hpos b (List.mem_cons_of_mem _ hb)) hin with ⟨tail, hbl, hmap, hpl⟩
        rcases List.mem_range'_1.mp hstart with ⟨hps1, hps2⟩
        have hsum1 : (block :: rest).sum = block + rest.sum := by simp
        have hlen1 : (block :: rest).length - 1 = rest.length := by simp
        rw [hsum1, hlen1] at hps2 hfit
        have hsbL : start + block ≤ L := by omega
        refine ⟨(start, block) :: tail, ?_, ?_, ⟨hps1, hpos block (by simp), hsbL, hpl⟩⟩
        · rw [hbl, List.append_assoc, List.singleton_append]
        · rw [List.map_cons, hmap]
      · rw [if_neg hguard] at hin
        simp at hin

theorem runs_of_generated {blocks : List Nat} {L : Nat} {l : Line}
    (hpos : ∀ b ∈ blocks, 0 < b)
    (hl : l ∈ generate_line_possibilities blocks L) :
    l.length = L ∧ runs l = blocks := by
  unfold generate_line_possibilities at hl
  by_cases hb : blocks.isEmpty
  · rw [if_pos hb] at hl
    simp only [List.mem_singleton] at hl
    subst hl
    refine ⟨by simp, ?_⟩
    rw [List.isEmpty_iff.mp hb]
    exact clueScan_replicate_false_zero L
  · rw [if_neg hb] at hl
    rcases generate_positions_mem blocks [] 0 L l hpos hl with ⟨tail, hbl, hmap, hpl⟩
    rw [List.nil_append] at hbl
    constructor
    · rw [hbl]
      exact buildLine_length L tail
    · rw [hbl]
      show clueScan (buildLine L tail) 0 = blocks
      rw [buildLine_eq_render hpl, clueScan_render tail L 0 hpl, hmap]

/-! ### The all-empty clue encodings -/

theorem buildLine_zero (L start : Nat) :
    buildLine L [(start, 0)] = List.replicate L false := by
  rw [List.eq_replicate_iff]
  constructor
  · simp [buildLine]
  · intro x hx
    rcases List.mem_map.mp hx with ⟨idx, -, hval⟩
    rw [← hval]
    simp only [List.any_cons, List.any_nil, Bool.or_false]
    rcases Nat.lt_or_ge idx (start + 0) with hlt | hge
    · have : ¬ start ≤ idx := by omega
      simp [this]
    · have : ¬ idx < start + 0 := by omega
      simp [this]

theorem flatMap_const_singleton :
    ∀ (l : List Nat) (x : Line), l.flatMap (fun _ => [x]) = List.replicate l.length x := by
  intro l x
  induction l with
  | nil => rfl
  | cons a l ih => simp [List.replicate_succ, ih]

theorem gen_zero_block (L : Nat) :
    generate_line_possibilities [0] L = List.replicate (L + 1) (List.replicate L false) := by
  unfold generate_line_possibilities
  rw [if_neg (by simp)]
  simp only [generate_positions]
  rw [if_neg (by simp)]
  have harith : L - ([0].sum + ([0].length - 1)) + 1 - 0 = L + 1 := by simp
  rw [harith]
  have hbody : ∀ start ∈ List.range' 0 (L + 1),
      (if (List.all ([] : List (Nat × Nat)) fun p => decide (p.1 + p.2 ≤ start)) = true then
        [buildLine L ([] ++ [(start, 0)])] else []) = [List.replicate L false] := by
    intro start _
    rw [if_pos (by simp), List.nil_append, buildLine_zero]
  rw [List.flatMap_congr hbody, flatMap_const_singleton]
  simp

theorem dedup_replicate_succ (x : Line) :
    ∀ n : Nat, (List.replicate (n + 1) x).dedup = [x] := by
  intro n
  induction n with
  | zero =>
    rw [List.replicate_succ, List.replicate_zero]
    rw [List.dedup_cons_of_not_mem (by simp), List.dedup_nil]
  | succ n ih =>
    rw [List.replicate_succ]
    rw [List.dedup_cons_of_mem (by simp : x ∈ List.replicate (n + 1) x)]
    exact ih

/-! ### Shape preservation -/

theorem shaped_init (p : Puzzle) : Shaped (pheight p) (pwidth p) (initState p) := by
  refine ⟨by simp [initState], ?_, by simp [initState, pheight], by simp [initState, pwidth]⟩
  intro r hr
  rw [List.eq_of_mem_replicate hr]
  simp

theorem filterLines_length (gls : List (List Cell)) (ds : List (List Line)) :
    (filterLines gls ds).2.length = ds.length :=
  (filterLines_sublist gls ds).length_eq

theorem gridle_shape {ww : Nat} {g g' : List (List Cell)} (h : GridLe g g')
    (hw : ∀ r ∈ g, r.length = ww) :
    g'.length = g.length ∧ ∀ r' ∈ g', r'.length = ww := by
  induction h with
  | nil => exact ⟨rfl, by simp⟩
  | @cons r r' l l' hr hl ih =>
    have ihx := ih (fun q hq => hw q (List.mem_cons_of_mem _ hq))
    refine ⟨by simp [ihx.1], ?_⟩
    intro q hq
    rcases List.mem_cons.mp hq with hq | hq
    · rw [hq, ← hr.length_eq]
      exact hw r (List.mem_cons_self r l)
    · exact ihx.2 q hq

theorem updatePass_shaped {hh ww : Nat} {s s' : SState} {r : Option Bool}
    (h : updatePass s = (r, s')) (hs : Shaped hh ww s) : Shaped hh ww s' := by
  rcases hs with ⟨h1, h2, h3, h4⟩
  have hmono := updatePass_mono h
  have hgrid := gridle_shape hmono.2.2 h2
  refine ⟨hgrid.1.trans h1, hgrid.2, ?_, ?_⟩
  · rw [hmono.1.length_eq, h3]
  · rw [hmono.2.1.length_eq, h4]

theorem updateLoop_shaped_aux :
    ∀ (N : Nat) (s : SState), smeasure s ≤ N → ∀ {hh ww : Nat} {b : Bool} {s' : SState},
      updateLoop s = (b, s') → Shaped hh ww s → Shaped hh ww s' := by
  intro N
  induction N with
  | zero =>
    intro s hN hh ww b s' h hs
    rw [updateLoop_eq] at h
    rcases hp : updatePass s with ⟨r, s₀⟩
    rw [hp] at h
    have hstep := updatePass_shaped hp hs
    cases r with
    | none =>
      rw [Prod.mk.injEq] at h
      rw [← h.2]
      exact hstep
    | some ch =>
      cases ch with
      | false =>
        rw [Prod.mk.injEq] at h
        rw [← h.2]
        exact hstep
      | true =>
        have := updatePass_measure_lt hp
        omega
  | succ N ih =>
    intro s hN hh ww b s' h hs
    rw [updateLoop_eq] at h
    rcases hp : updatePass s with ⟨r, s₀⟩
    rw [hp] at h
    have hstep := updatePass_shaped hp hs
    cases r with
    | none =>
      rw [Prod.mk.injEq] at h
      rw [← h.2]
      exact hstep
    | some ch =>
      cases ch with
      | false =>
        rw [Prod.mk.injEq] at h
        rw [← h.2]
        exact hstep
      | true =>
        have := updatePass_measure_lt hp
        exact ih s₀ (by omega) h hstep

theorem updateLoop_shaped {hh ww : Nat} {s s' : SState} {b : Bool}
    (h : updateLoop s = (b, s')) (hs : Shaped hh ww s) : Shaped hh ww s' :=
  updateLoop_shaped_aux (smeasure s) s (Nat.le_refl _) h hs

theorem setCell_shaped {hh ww : Nat} {s : SState} (i j : Nat) (c : Cell)
    (hs : Shaped hh ww s) : Shaped hh ww (setCell s i j c) := by
  rcases hs with ⟨h1, h2, h3, h4⟩
  refine ⟨?_, ?_, h3, h4⟩
  · simp [setCell, h1]
  · intro r hr
    simp only [setCell] at hr
    rcases Nat.lt_or_ge i s.grid.length with hi | hi
    · rcases List.mem_or_eq_of_mem_set hr with hmem | hset
      · exact h2 r hmem
      · rw [hset, List.length_set, List.getD_eq_getElem s.grid [] hi]
        exact h2 _ (List.getElem_mem hi)
    · rw [List.set_eq_of_length_le hi] at hr
      exact h2 r hr

theorem solveF_shaped :
    ∀ (n : Nat) {hh ww : Nat} (s : SState) (b : Bool) (s' : SState),
      solveF n s = some (b, s') → Shaped hh ww s → Shaped hh ww s' := by
  intro n
  induction n with
  | zero =>
    intro hh ww s b s' h _
    simp [solveF] at h
  | succ n ih =>
    intro hh ww s b s' h hs
    rw [solveF] at h
    rcases hl : updateLoop s with ⟨lb, s₀⟩
    rw [hl] at h
    have hs₀ := updateLoop_shaped hl hs
    cases lb with
    | false =>
      rw [Option.some.injEq, Prod.mk.injEq] at h
      rw [← h.2]
      exact hs₀
    | true =>
      dsimp only at h
      rcases hf : findBest s₀ with - | ⟨i, j, c0, c1⟩
      · rw [hf] at h
        rw [Option.some.injEq, Prod.mk.injEq] at h
        rw [← h.2]
        exact hs₀
      · rw [hf] at h
        dsimp only at h
        cases c0 with
        | true =>
          rw [if_pos rfl] at h
          rcases hr1 : solveF n (setCell s₀ i j (some false)) with - | ⟨b₁, s₁⟩
          · rw [hr1] at h
            exact absurd h (by simp)
          · rw [hr1] at h
            have hs₁ := ih _ _ _ hr1 (setCell_shaped i j (some false) hs₀)
            cases b₁ with
            | true =>
              rw [Option.some.injEq, Prod.mk.injEq] at h
              rw [← h.2]
              exact hs₁
            | false =>
              dsimp only at h
              cases c1 with
              | true =>
                rw [if_pos rfl] at h
                rcases hr2 : solveF n (setCell (setCell s₁ i j none) i j (some true))
                    with - | ⟨b₂, s₃⟩
                · rw [hr2] at h
                  exact absurd h (by simp)
                · rw [hr2] at h
                  have hs₃ := ih _ _ _ hr2
                    (setCell_shaped i j (some true) (setCell_shaped i j none hs₁))
                  cases b₂ with
                  | true =>
                    rw [Option.some.injEq, Prod.mk.injEq] at h
                    rw [← h.2]
                    exact hs₃
                  | false =>
                    rw [Option.some.injEq, Prod.mk.injEq] at h
                    rw [← h.2]
                    exact setCell_shaped i j none hs₃
              | false =>
                rw [if_neg (by simp)] at h
                rw [Option.some.injEq, Prod.mk.injEq] at h
                rw [← h.2]
                exact setCell_shaped i j none hs₁
        | false =>
          rw [if_neg (by simp)] at h
          cases c1 with
          | true =>
            rw [if_pos rfl] at h
            rcases hr1 : solveF n (setCell s₀ i j (some true)) with - | ⟨b₁, s₁⟩
            · rw [hr1] at h
              exact absurd h (by simp)
            · rw [hr1] at h
              have hs₁ := ih _ _ _ hr1 (setCell_shaped i j (some true) hs₀)
              cases b₁ with
              | true =>
                rw [Option.some.injEq, Prod.mk.injEq] at h
                rw [← h.2]
                exact hs₁
              | false =>
                rw [Option.some.injEq, Prod.mk.injEq] at h
                rw [← h.2]
                exact setCell_shaped i j none hs₁
          | false =>
            rw [if_neg (by simp)] at h
            rw [Option.some.injEq, Prod.mk.injEq] at h
            rw [← h.2]
            exact hs₀

/-! ### Content of a filtering fixpoint -/

theorem filterLines_fix :
    ∀ (gls : List (List Cell)) (ds : List (List Line)) (ch : Bool),
      filterLines gls ds = (some ch, ds) →
      ∀ q ∈ gls.zip ds, q.2 ≠ [] ∧ ∀ a ∈ q.2, agreesLine q.1 a = true := by
  intro gls ds
  induction ds generalizing gls with
  | nil =>
    intro ch _ q hq
    simp at hq
  | cons d ds ih =>
    intro ch h q hq
    cases gls with
    | nil => simp at hq
    | cons gl gls =>
      rcases h2 : filterLines gls ds with ⟨r, ds₁⟩
      by_cases he : (d.filter (fun a => agreesLine gl a)).isEmpty
      · rw [show filterLines (gl :: gls) (d :: ds) = (none, d :: ds) from by
          simp only [filterLines, he, if_true]] at h
        simp at h
      · cases r with
        | none =>
          rw [show filterLines (gl :: gls) (d :: ds)
              = (none, (d.filter (fun a => agreesLine gl a)) :: ds₁) from by
            simp only [filterLines, h2, he, if_false, Bool.false_eq_true]] at h
          simp at h
        | some ch' =>
          rw [show filterLines (gl :: gls) (d :: ds)
              = (some (ch' || !(decide ((d.filter (fun a => agreesLine gl a)) = d))),
                 (d.filter (fun a => agreesLine gl a)) :: ds₁) from by
            simp only [filterLines, h2, he, if_false, Bool.false_eq_true]] at h
          rw [Prod.mk.injEq, List.cons.injEq] at h
          rcases h with ⟨-, hnd, hds⟩
          rw [List.zip_cons_cons] at hq
          rcases List.mem_cons.mp hq with hq | hq
          · subst hq
            refine ⟨?_, List.filter_eq_self.mp hnd⟩
            intro hdnil
            have hd : d = [] := hdnil
            rw [hd] at he
            simp at he
          · rw [hds] at h2
            exact ih gls ch' h2 q hq

theorem findBest_none_all :
    ∀ (l : List (Nat × Nat)) (s : SState) (acc : Option (Nat × Nat × Bool × Bool)),
      l.foldl (bestStep s) acc = none →
      acc = none ∧ ∀ q ∈ l, (s.grid.getD q.1 []).getD q.2 none ≠ none := by
  intro l s
  induction l with
  | nil =>
    intro acc h
    exact ⟨h, by simp⟩
  | cons q l ih =>
    intro acc h
    rw [List.foldl_cons] at h
    rcases ih _ h with ⟨hstep, hrest⟩
    by_cases hq : (s.grid.getD q.1 []).getD q.2 none = none
    · exfalso
      unfold bestStep at hstep
      rw [if_pos hq] at hstep
      cases acc with
      | none => simp at hstep
      | some b =>
        rcases b with ⟨bi, bj, b0, b1⟩
        dsimp only at hstep
        by_cases hlt : commonSize (cellCommon s q.1 q.2) < commonSize (b0, b1)
        · rw [if_pos hlt] at hstep
          simp at hstep
        · rw [if_neg hlt] at hstep
          simp at hstep
    · unfold bestStep at hstep
      rw [if_neg hq] at hstep
      subst hstep
      refine ⟨rfl, ?_⟩
      intro q' hq'
      rcases List.mem_cons.mp hq' with h' | h'
      · rw [h']
        exact hq
      · exact hrest q' h'

theorem findBest_none_cells {s : SState} (h : findBest s = none) :
    ∀ q ∈ cellIndices s, (s.grid.getD q.1 []).getD q.2 none ≠ none :=
  (findBest_none_all (cellIndices s) s none h).2

theorem mem_cellIndices {s : SState} {i j : Nat} (hi : i < s.grid.length)
    (hj : j < (s.grid.getD i []).length) : (i, j) ∈ cellIndices s := by
  unfold cellIndices
  rw [List.mem_flatMap]
  exact ⟨i, List.mem_range.mpr hi, List.mem_map.mpr ⟨j, List.mem_range.mpr hj, rfl⟩⟩

theorem decode_of_agrees :
    ∀ (gl : List Cell) (a : Line), (∀ c ∈ gl, c ≠ none) → gl.length = a.length →
      agreesLine gl a = true → gl.map (fun c => c.getD false) = a := by
  intro gl
  induction gl with
  | nil =>
    intro a _ hlen _
    cases a with
    | nil => rfl
    | cons v a => simp at hlen
  | cons c gl ih =>
    intro a hsome hlen hag
    cases a with
    | nil => simp at hlen
    | cons v a =>
      simp only [agreesLine, List.zip_cons_cons, List.all_cons, Bool.and_eq_true] at hag
      rcases hag with ⟨hhead, htail⟩
      have hc := hsome c (List.mem_cons_self c gl)
      cases c with
      | none => exact absurd rfl hc
      | some w =>
        have hw : w = v := by
          simpa using hhead
        rw [List.map_cons]
        have htl : gl.map (fun c => c.getD false) = a :=
          ih a (fun x hx => hsome x (List.mem_cons_of_mem _ hx))
            (by simpa using hlen) htail
        rw [htl]
        simp [hw]

/-! ### A successful search result is a solution -/

theorem leaf_line_runs {clue : List Nat} {L : Nat} {gl : List Cell} {dom init0 : List Line}
    (hdne : dom ≠ []) (hag : ∀ a ∈ dom, agreesLine gl a = true)
    (hsub : List.Sublist dom init0)
    (hinit : init0 = domainFor clue L)
    (hpos : ∀ b ∈ clue, 0 < b)
    (hsome : ∀ c ∈ gl, c ≠ none)
    (hgl : gl.length = L) :
    runs (gl.map (fun c => c.getD false)) = clue := by
  rcases List.exists_mem_of_ne_nil dom hdne with ⟨a, ha⟩
  have hainit : a ∈ init0 := hsub.subset ha
  rw [hinit] at hainit
  have hmemgen : a ∈ generate_line_possibilities clue L := List.mem_dedup.mp hainit
  have hruns := runs_of_generated hpos hmemgen
  have hdec := decode_of_agrees gl a hsome (by rw [hgl, hruns.1]) (hag a ha)
  rw [hdec, hruns.2]

theorem solveF_solution {p : Puzzle} {f : Nat} {t : SState}
    (hposr : ∀ clue ∈ p.rowConstraints, ∀ b ∈ clue, 0 < b)
    (hposc : ∀ clue ∈ p.colConstraints, ∀ b ∈ clue, 0 < b)
    (h : solveF f (initState p) = some (true, t)) :
    (∀ row ∈ t.grid, ∀ c ∈ row, c ≠ none) ∧ isSolution p (decodeGrid t.grid) = true := by
  rcases solveF_shaped f (initState p) true t h (shaped_init p) with
    ⟨hglen, hrowlen, hrdlen, hcdlen⟩
  rcases solveF_true_leaf f (initState p) t h with ⟨hpass, hbest⟩
  have hnone : ∀ row ∈ t.grid, ∀ c ∈ row, c ≠ none := by
    intro row hrowm c hc
    rcases List.mem_iff_getElem.mp hrowm with ⟨i, hi, hrowi⟩
    rcases List.mem_iff_getElem.mp hc with ⟨j, hj, hcj⟩
    intro hcn
    have hj' : j < (t.grid.getD i []).length := by
      rw [List.getD_eq_getElem t.grid [] hi, hrowi]
      exact hj
    apply findBest_none_cells hbest (i, j) (mem_cellIndices hi hj')
    show (t.grid.getD i []).getD j none = none
    rw [List.getD_eq_getElem t.grid [] hi, hrowi, List.getD_eq_getElem row none hj, hcj, hcn]
  rcases updatePass_some_elim hpass with ⟨rch, cch, rds, cds, h1, h2, hst, -⟩
  have hrds : t.rowDomains = rds := congrArg SState.rowDomains hst
  have hcds : t.colDomains = cds := congrArg SState.colDomains hst
  rw [← hrds] at h1
  rw [← hcds] at h2
  have hrowfix := filterLines_fix t.grid t.rowDomains rch h1
  have hcolfix := filterLines_fix (gridCols t.grid t.colDomains.length) t.colDomains cch h2
  have hsub := solveF_domains f (initState p) true t h
  have hinitrd : (initState p).rowDomains.length = pheight p := by simp [initState, pheight]
  have hinitcd : (initState p).colDomains.length = pwidth p := by simp [initState, pwidth]
  have hrowruns : ∀ i, i < pheight p →
      runs ((t.grid.getD i []).map (fun c => c.getD false)) = p.rowConstraints.getD i [] := by
    intro i hi
    have higrid : i < t.grid.length := by omega
    have hird : i < t.rowDomains.length := by omega
    have hipr : i < p.rowConstraints.length := hi
    have hziplen : (t.grid.zip t.rowDomains).length = pheight p := by
      rw [List.length_zip, hglen, hrdlen]
      simp
    have hizip : i < (t.grid.zip t.rowDomains).length := by omega
    have hq : (t.grid[i], t.rowDomains[i]) ∈ t.grid.zip t.rowDomains :=
      List.mem_iff_getElem.mpr ⟨i, hizip, by rw [List.getElem_zip]⟩
    rcases hrowfix _ hq with ⟨hdne, hdag⟩
    have hfg := List.forall₂_iff_get.mp hsub.1
    have hiird : i < (initState p).rowDomains.length := by omega
    have hsubi : List.Sublist t.rowDomains[i] (initState p).rowDomains[i] := by
      have := hfg.2 i hird hiird
      simpa using this
    have hinit_i : (initState p).rowDomains[i]
        = domainFor p.rowConstraints[i] (pwidth p) := by
      simp [initState, List.getElem_map]
    rw [List.getD_eq_getElem t.grid [] higrid, List.getD_eq_getElem p.rowConstraints [] hipr]
    exact leaf_line_runs hdne hdag hsubi hinit_i
      (hposr _ (List.getElem_mem hipr))
      (fun c hc => hnone _ (List.getElem_mem higrid) c hc)
      (hrowlen _ (List.getElem_mem higrid))
  have hcolruns : ∀ j, j < pwidth p →
      runs ((colLine t.grid j).map (fun c => c.getD false)) = p.colConstraints.getD j [] := by
    intro j hj
    have hjcd : j < t.colDomains.length := by omega
    have hjpc : j < p.colConstraints.length := hj
    have hgclen : (gridCols t.grid t.colDomains.length).length = t.colDomains.length := by
      simp [gridCols]
    have hziplen : ((gridCols t.grid t.colDomains.length).zip t.colDomains).length
        = t.colDomains.length := by
      rw [List.length_zip, hgclen]
      simp
    have hjzip : j < ((gridCols t.grid t.colDomains.length).zip t.colDomains).length := by omega
    have hjgc : j < (gridCols t.grid t.colDomains.length).length := by omega
    have hgcj : (gridCols t.grid t.colDomains.length)[j] = colLine t.grid j := by
      simp [gridCols]
    have hq : (colLine t.grid j, t.colDomains[j])
        ∈ (gridCols t.grid t.colDomains.length).zip t.colDomains :=
      List.mem_iff_getElem.mpr ⟨j, hjzip, by rw [List.getElem_zip, hgcj]⟩
    rcases hcolfix _ hq with ⟨hdne, hdag⟩
    have hfg := List.forall₂_iff_get.mp hsub.2
    have hjicd : j < (initState p).colDomains.length := by omega
    have hsubj : List.Sublist t.colDomains[j] (initState p).colDomains[j] := by
      have := hfg.2 j hjcd hjicd
      simpa using this
    have hinit_j : (initState p).colDomains[j]
        = domainFor p.colConstraints[j] (pheight p) := by
      simp [initState, List.getElem_map]
    have hcl_len : (colLine t.grid j).length = pheight p := by
      simp [colLine, hglen]
    have hcl_some : ∀ c ∈ colLine t.grid j, c ≠ none := by
      intro c hc
      rcases List.mem_map.mp hc with ⟨row, hrowm, hval⟩
      have hjrow : j < row.length := by
        rw [hrowlen row hrowm]
        exact hj
      rw [← hval, List.getD_eq_getElem row none hjrow]
      exact hnone row hrowm _ (List.getElem_mem hjrow)
    rw [List.getD_eq_getElem p.colConstraints [] hjpc]
    exact leaf_line_runs hdne hdag hsubj hinit_j
      (hposc _ (List.getElem_mem hjpc)) hcl_some hcl_len
  refine ⟨hnone, ?_⟩
  have hGlen : (decodeGrid t.grid).length = pheight p := by
    simp [decodeGrid, hglen]
  have hGrow : ∀ row ∈ decodeGrid t.grid, row.length = pwidth p := by
    intro row hrowm
    rcases List.mem_map.mp hrowm with ⟨r, hr, hval⟩
    rw [← hval]
    simp [hrowlen r hr]
  have hGrows : (decodeGrid t.grid).map runs = p.rowConstraints := by
    apply List.ext_getElem
    · simp [decodeGrid, hglen, pheight]
    · intro n h₁ h₂
      have hn : n < pheight p := h₂
      have hngrid : n < t.grid.length := by omega
      have := hrowruns n hn
      rw [List.getD_eq_getElem t.grid [] hngrid, List.getD_eq_getElem p.rowConstraints [] h₂]
        at this
      simpa [decodeGrid, List.getElem_map] using this
  have hGcols : (List.range (pwidth p)).map
      (fun j => runs ((decodeGrid t.grid).map (fun row => row.getD j false)))
      = p.colConstraints := by
    apply List.ext_getElem
    · simp [pwidth]
    · intro n h₁ h₂
      have hn : n < pwidth p := h₂
      have hcoleq : (decodeGrid t.grid).map (fun row => row.getD n false)
          = (colLine t.grid n).map (fun c => c.getD false) := by
        simp only [decodeGrid, colLine, List.map_map]
        apply List.map_congr_left
        intro r hr
        have hnr : n < r.length := by
          rw [hrowlen r hr]
          exact hn
        have hnr' : n < (r.map (fun c => c.getD false)).length := by
          simp [hnr]
        show (r.map (fun c => c.getD false)).getD n false = (r.getD n none).getD false
        rw [List.getD_eq_getElem _ false hnr', List.getElem_map,
          List.getD_eq_getElem r none hnr]
      have := hcolruns n hn
      rw [List.getD_eq_getElem p.colConstraints [] h₂] at this
      simp only [List.getElem_map, List.getElem_range]
      rw [hcoleq]
      exact this
  simp only [isSolution, Bool.and_eq_true, decide_eq_true_eq, List.all_eq_true]
  exact ⟨⟨⟨hGlen, fun row hrow => hGrow row hrow⟩, hGrows⟩, hGcols⟩

/-! ### Branching over an empty candidate set -/

theorem commonSize_eq_zero {b0 b1 : Bool} (h : commonSize (b0, b1) = 0) :
    b0 = false ∧ b1 = false := by
  cases b0 <;> cases b1 <;> simp_all [commonSize]

theorem findBest_zero_aux :
    ∀ (l : List (Nat × Nat)) (s : SState) (acc : Option (Nat × Nat × Bool × Bool)),
      ((∃ q ∈ l, (s.grid.getD q.1 []).getD q.2 none = none ∧
          cellCommon s q.1 q.2 = (false, false)) ∨
        (∃ bi bj, acc = some (bi, bj, false, false))) →
      ∃ bi bj, l.foldl (bestStep s) acc = some (bi, bj, false, false) := by
  intro l s
  induction l with
  | nil =>
    intro acc h
    rcases h with ⟨q, hq, -⟩ | h
    · simp at hq
    · simpa using h
  | cons q l ih =>
    intro acc h
    rw [List.foldl_cons]
    apply ih
    rcases h with ⟨q', hq', hcell, hcom⟩ | ⟨bi, bj, hacc⟩
    · rcases List.mem_cons.mp hq' with heq | hmem
      · subst heq
        right
        unfold bestStep
        rw [if_pos hcell]
        cases acc with
        | none =>
          refine ⟨q'.1, q'.2, ?_⟩
          rw [hcom]
        | some b =>
          rcases b with ⟨bi, bj, b0, b1⟩
          dsimp only
          by_cases hlt : commonSize (cellCommon s q'.1 q'.2) < commonSize (b0, b1)
          · rw [if_pos hlt]
            refine ⟨q'.1, q'.2, ?_⟩
            rw [hcom]
          · rw [if_neg hlt]
            rw [hcom] at hlt
            have h00 : commonSize (false, false) = 0 := rfl
            rw [h00] at hlt
            have hz : commonSize (b0, b1) = 0 := by omega
            rcases commonSize_eq_zero hz with ⟨hb0, hb1⟩
            exact ⟨bi, bj, by rw [hb0, hb1]⟩
      · exact Or.inl ⟨q', hmem, hcell, hcom⟩
    · right
      subst hacc
      unfold bestStep
      by_cases hc : (s.grid.getD q.1 []).getD q.2 none = none
      · rw [if_pos hc]
        dsimp only
        have : ¬ commonSize (cellCommon s q.1 q.2) < commonSize (false, false) := by
          simp [commonSize]
        rw [if_neg this]
        exact ⟨bi, bj, rfl⟩
      · rw [if_neg hc]
        exact ⟨bi, bj, rfl⟩

theorem findBest_zero {s : SState} {i j : Nat}
    (hi : i < s.grid.length) (hj : j < (s.grid.getD i []).length)
    (hcell : (s.grid.getD i []).getD j none = none)
    (hcom : cellCommon s i j = (false, false)) :
    ∃ bi bj, findBest s = some (bi, bj, false, false) :=
  findBest_zero_aux (cellIndices s) s none
    (Or.inl ⟨(i, j), mem_cellIndices hi hj, hcell, hcom⟩)

theorem solveF_empty_common {n : Nat} {s s' : SState}
    (hl : updateLoop s = (true, s')) {i j : Nat}
    (hi : i < s'.grid.length) (hj : j < (s'.grid.getD i []).length)
    (hcell : (s'.grid.getD i []).getD j none = none)
    (hcom : cellCommon s' i j = (false, false)) :
    solveF (n + 1) s = some (false, s') := by
  rcases findBest_zero hi hj hcell hcom with ⟨bi, bj, hfb⟩
  rw [solveF, hl]
  dsimp only
  rw [hfb]
  dsimp only
  rw [if_neg (by simp), if_neg (by simp)]

/-! ### Empty initial domains -/

theorem filterLines_empty_abort :
    ∀ (gls : List (List Cell)) (ds : List (List Line)),
      ds.length ≤ gls.length → (∃ d ∈ ds, d = []) →
      (filterLines gls ds).1 = none := by
  intro gls ds
  induction ds generalizing gls with
  | nil =>
    intro _ h
    simp at h
  | cons d ds ih =>
    intro hlen hex
    cases gls with
    | nil => simp at hlen
    | cons gl gls =>
      by_cases he : (d.filter (fun a => agreesLine gl a)).isEmpty
      · simp [filterLines, he]
      · rcases hex with ⟨d', hd', hd'e⟩
        rcases List.mem_cons.mp hd' with heq | hmem
        · exfalso
          apply he
          rw [heq] at hd'e
          rw [hd'e]
          simp
        · have hrec := ih gls (by simpa using hlen) ⟨d', hmem, hd'e⟩
          rcases h2 : filterLines gls ds with ⟨r, ds₁⟩
          rw [h2] at hrec
          cases r with
          | none => simp [filterLines, he, h2]
          | some ch => simp at hrec

theorem agreesLine_none (gl : List Cell) (a : Line) (h : ∀ c ∈ gl, c = none) :
    agreesLine gl a = true := by
  simp only [agreesLine, List.all_eq_true]
  intro q hq
  have := h q.1 (List.of_mem_zip hq).1
  simp [this]

theorem filterLines_all_none :
    ∀ (gls : List (List Cell)) (ds : List (List Line)),
      (∀ gl ∈ gls, ∀ c ∈ gl, c = none) → (∀ d ∈ ds, d ≠ []) →
      filterLines gls ds = (some false, ds) := by
  intro gls ds
  induction ds generalizing gls with
  | nil => intro _ _; cases gls <;> rfl
  | cons d ds ih =>
    intro hgl hne
    cases gls with
    | nil => rfl
    | cons gl gls =>
      have hfe : d.filter (fun a => agreesLine gl a) = d :=
        List.filter_eq_self.mpr (fun a _ =>
          agreesLine_none gl a (hgl gl (List.mem_cons_self gl gls)))
      have hdn : d ≠ [] := hne d (List.mem_cons_self d ds)
      have hni : ¬ (d.filter (fun a => agreesLine gl a)).isEmpty = true := by
        rw [hfe, List.isEmpty_iff]
        exact hdn
      have htail := ih gls (fun g hg => hgl g (List.mem_cons_of_mem _ hg))
        (fun x hx => hne x (List.mem_cons_of_mem _ hx))
      have hfl : filterLines (gl :: gls) (d :: ds)
          = (some (false || !(decide ((d.filter (fun a => agreesLine gl a)) = d))),
             (d.filter (fun a => agreesLine gl a)) :: ds) := by
        simp only [filterLines, hni, if_false, Bool.false_eq_true, htail]
      rw [hfl, hfe]
      simp

theorem initState_grid_none (p : Puzzle) :
    ∀ gl ∈ (initState p).grid, ∀ c ∈ gl, c = none := by
  intro gl hgl c hc
  rw [List.eq_of_mem_replicate hgl] at hc
  exact List.eq_of_mem_replicate hc

theorem colLine_none {g : List (List Cell)} (j : Nat)
    (h : ∀ gl ∈ g, ∀ c ∈ gl, c = none) :
    ∀ c ∈ colLine g j, c = none := by
  intro c hc
  rcases List.mem_map.mp hc with ⟨row, hrow, hval⟩
  rcases Nat.lt_or_ge j row.length with hj | hj
  · rw [← hval, List.getD_eq_getElem row none hj]
    exact h row hrow _ (List.getElem_mem hj)
  · rw [← hval, List.getD_eq_getElem?_getD, List.getElem?_eq_none (by omega)]
    rfl

theorem updatePass_init_none {p : Puzzle}
    (hex : (∃ d ∈ (initState p).rowDomains, d = []) ∨
           (∃ d ∈ (initState p).colDomains, d = [])) :
    (updatePass (initState p)).1 = none := by
  rcases shaped_init p with ⟨hglen, -, hrdlen, hcdlen⟩
  by_cases hrow : ∃ d ∈ (initState p).rowDomains, d = []
  · have habort := filterLines_empty_abort (initState p).grid (initState p).rowDomains
      (by omega) hrow
    rcases h1 : filterLines (initState p).grid (initState p).rowDomains with ⟨r1, rds⟩
    rw [h1] at habort
    cases r1 with
    | none => simp [updatePass, h1]
    | some rch => simp at habort
  · rcases hex with hex | hcol
    · exact absurd hex hrow
    · have hrne : ∀ d ∈ (initState p).rowDomains, d ≠ [] := by
        intro d hd hde
        exact hrow ⟨d, hd, hde⟩
      have h1 := filterLines_all_none (initState p).grid (initState p).rowDomains
        (initState_grid_none p) hrne
      have hcols_none : ∀ gl ∈ gridCols (initState p).grid (initState p).colDomains.length,
          ∀ c ∈ gl, c = none := by
        intro gl hgl
        rcases List.mem_map.mp hgl with ⟨j, -, hval⟩
        rw [← hval]
        exact colLine_none j (initState_grid_none p)
      have habort := filterLines_empty_abort
        (gridCols (initState p).grid (initState p).colDomains.length)
        (initState p).colDomains (by simp [gridCols]) hcol
      rcases h2 : filterLines (gridCols (initState p).grid (initState p).colDomains.length)
          (initState p).colDomains with ⟨r2, cds⟩
      rw [h2] at habort
      cases r2 with
      | none => simp [updatePass, h1, h2]
      | some cch => simp at habort

theorem solveF_of_updatePass_none {n : Nat} {s s' : SState}
    (hp : updatePass s = (none, s')) : solveF (n + 1) s = some (false, s') := by
  have hl : updateLoop s = (false, s') := by rw [updateLoop_eq, hp]
  rw [solveF, hl]

theorem domainFor_nil {blocks : List Nat} {L : Nat}
    (h : L < blocks.sum + blocks.length - 1) : domainFor blocks L = [] := by
  cases blocks with
  | nil => simp at h
  | cons b rest =>
    have hne : L < (b :: rest).sum + ((b :: rest).length - 1) := by
      have h1 : (b :: rest).sum = b + rest.sum := by simp
      have h2 : (b :: rest).length = rest.length + 1 := by simp
      rw [h1, h2]
      rw [h1, h2] at h
      omega
    unfold domainFor generate_line_possibilities
    rw [if_neg (by simp)]
    simp only [generate_positions]
    rw [if_pos hne]
    rfl

theorem gen_possibilities_nil {blocks : List Nat} {L : Nat}
    (h : L < blocks.sum + blocks.length - 1) :
    generate_line_possibilities blocks L = [] := by
  cases blocks with
  | nil => simp at h
  | cons b rest =>
    have hne : L < (b :: rest).sum + ((b :: rest).length - 1) := by
      have h1 : (b :: rest).sum = b + rest.sum := by simp
      have h2 : (b :: rest).length = rest.length + 1 := by simp
      rw [h1, h2]
      rw [h1, h2] at h
      omega
    unfold generate_line_possibilities
    rw [if_neg (by simp)]
    simp only [generate_positions]
    rw [if_pos hne]

/-! ## Claims -/

/-- C1: the claim states that `solve()` returns true whenever some binary grid
satisfies every row and column clue, and false only on unsatisfiable puzzles.
The code violates it: `exP3` is satisfied by `exG3`, yet the solver returns
false.  A failed branch resets only the branch cell; the row/column domains
narrowed (and cells forced) during that branch's propagation persist, so the
sibling candidate value is filtered against stale domains and fails instantly,
making the whole search return false on this satisfiable puzzle. -/
theorem C1_solve_false_on_satisfiable :
    isSolution exP3 exG3 = true ∧
    (solveF 13 (initState exP3)).map Prod.fst = some false :=
  ⟨by decide, by decide⟩

/-- C2 counterexample: on the 1×1 puzzle whose row and column clue is the
blank-line encoding `[0]`, `solve()` returns true with the all-empty grid, but
run-length-encoding that row yields `[]`, not the original clue `[0]`, so the
claim as stated fails for puzzles holding `[0]` clues. -/
theorem C2_cex_zero_clue :
    solveF 2 (initState ⟨[[0]], [[0]]⟩)
      = some (true, ⟨[[some false]], [[[false]]], [[[false]]]⟩) ∧
    runs (List.map (fun c => c.getD false) [some false]) = [] ∧
    ([] : List Nat) ≠ [0] :=
  ⟨by decide, rfl, by decide⟩

/-- C2 (amended to puzzles whose clues consist of positive block lengths):
whenever `solve()` returns true, the resulting grid has no Unknown cell, and
run-length-encoding every row and every column of the decoded grid yields
exactly the original clue sequences (the `isSolution` check). -/
theorem C2_solution_sound (p : Puzzle) (f : Nat) (t : SState)
    (hposr : ∀ clue ∈ p.rowConstraints, ∀ b ∈ clue, 0 < b)
    (hposc : ∀ clue ∈ p.colConstraints, ∀ b ∈ clue, 0 < b)
    (h : solveF f (initState p) = some (true, t)) :
    (∀ row ∈ t.grid, ∀ c ∈ row, c ≠ none) ∧ isSolution p (decodeGrid t.grid) = true :=
  solveF_solution hposr hposc h

/-- C2 witness: the 1×1 puzzle with clue `[1]` on both sides. -/
theorem C2_solution_sound_witness :
    (∀ row ∈ (⟨[[some true]], [[[true]]], [[[true]]]⟩ : SState).grid,
      ∀ c ∈ row, c ≠ none) ∧
    isSolution ⟨[[1]], [[1]]⟩
      (decodeGrid (⟨[[some true]], [[[true]]], [[[true]]]⟩ : SState).grid) = true :=
  C2_solution_sound ⟨[[1]], [[1]]⟩ 3 ⟨[[some true]], [[[true]]], [[[true]]]⟩
    (by decide) (by decide) (by decide)

/-- C3: the claim (and the spec's required strategy) says a failed branch
attempt restores grid and all domains to their exact pre-branch state.  The
code resets only the branch cell.  On `exP3`: root propagation succeeds, the
solver branches at cell (0,0) over both values, the 0-attempt fails, and the
state obtained by resetting just the branch cell — exactly what the code
proceeds with — still differs from the pre-branch state in its row domains. -/
theorem C3_branch_state_not_restored :
    (updateLoop (initState exP3)).1 = true ∧
    findBest (updateLoop (initState exP3)).2 = some (0, 0, true, true) ∧
    (solveF 12 (setCell (updateLoop (initState exP3)).2 0 0 (some false))).map Prod.fst
      = some false ∧
    (solveF 12 (setCell (updateLoop (initState exP3)).2 0 0 (some false))).map
      (fun r => decide ((setCell r.2 0 0 none).rowDomains
        = (updateLoop (initState exP3)).2.rowDomains)) = some false :=
  ⟨by decide, by decide, by decide, by decide⟩

/-- C4 counterexample: on the 1×1 puzzle with row clue `[1]` and column clue
`[]`, the still-unknown cell (0,0) has empty row/column value intersection, yet
`_update_domains` returns true and leaves the state unchanged: the code only
acts on `len(common_values) == 1` and never fails on an empty intersection. -/
theorem C4_cex_empty_intersection :
    updateLoop (initState ⟨[[1]], [[]]⟩) = (true, initState ⟨[[1]], [[]]⟩) ∧
    (initState ⟨[[1]], [[]]⟩).grid = [[none]] ∧
    cellCommon (initState ⟨[[1]], [[]]⟩) 0 0 = (false, false) :=
  ⟨by decide, by decide, by decide⟩

/-- C4 (amended): an empty intersection at a still-unknown cell does not make
propagation fail; instead `solve` then selects a cell whose candidate set is
empty, branches over nothing, and returns false with the propagated state, so
the contradiction is detected by the search controller rather than by
propagation. -/
theorem C4_empty_intersection_solve_false (n : Nat) (s s' : SState) (i j : Nat)
    (hl : updateLoop s = (true, s'))
    (hi : i < s'.grid.length) (hj : j < (s'.grid.getD i []).length)
    (hcell : (s'.grid.getD i []).getD j none = none)
    (hcom : cellCommon s' i j = (false, false)) :
    solveF (n + 1) s = some (false, s') :=
  solveF_empty_common hl hi hj hcell hcom

/-- C4 witness: the counterexample puzzle, on which `solve` returns false. -/
theorem C4_empty_intersection_witness :
    solveF 1 (initState ⟨[[1]], [[]]⟩) = some (false, initState ⟨[[1]], [[]]⟩) :=
  C4_empty_intersection_solve_false 0 (initState ⟨[[1]], [[]]⟩)
    (initState ⟨[[1]], [[]]⟩) 0 0 (by decide) (by decide) (by decide)
    (by decide) (by decide)

/-- C5: every line produced by the possibility generator for a sequence of
positive blocks has exactly the requested length, and its maximal runs of
filled cells, read left to right, are exactly the blocks — same count, same
order, separated by empties, with no filled cell outside a run (all captured by
the run-length encoding `runs` equalling `blocks`). -/
theorem C5_generated_lines_match_blocks (blocks : List Nat) (L : Nat) (l : Line)
    (hpos : ∀ b ∈ blocks, 0 < b)
    (hl : l ∈ generate_line_possibilities blocks L) :
    l.length = L ∧ runs l = blocks :=
  runs_of_generated hpos hl

/-- C5 witness: blocks `[1, 2]` in a line of length 4. -/
theorem C5_generated_lines_witness :
    ([true, false, true, true] : Line).length = 4 ∧
    runs [true, false, true, true] = [1, 2] :=
  C5_generated_lines_match_blocks [1, 2] 4 [true, false, true, true]
    (by decide) (by decide)

/-- C6: a puzzle with a clue needing more space than its line has
(`sum(blocks) + len(blocks) - 1 > length`) gets an empty generated possibility
list and hence an empty initial Domain for that line, and `solve()` returns
false: the first propagation pass aborts on the empty domain. -/
theorem C6_oversized_clue_unsolvable (p : Puzzle) (n : Nat)
    (h : (∃ blocks ∈ p.rowConstraints, pwidth p < blocks.sum + blocks.length - 1) ∨
         (∃ blocks ∈ p.colConstraints, pheight p < blocks.sum + blocks.length - 1)) :
    ((∃ blocks ∈ p.rowConstraints, generate_line_possibilities blocks (pwidth p) = [] ∧
        [] ∈ (initState p).rowDomains) ∨
     (∃ blocks ∈ p.colConstraints, generate_line_possibilities blocks (pheight p) = [] ∧
        [] ∈ (initState p).colDomains)) ∧
    (solveF (n + 1) (initState p)).map Prod.fst = some false := by
  have hex : (∃ d ∈ (initState p).rowDomains, d = []) ∨
      (∃ d ∈ (initState p).colDomains, d = []) := by
    rcases h with ⟨blocks, hmem, hsz⟩ | ⟨blocks, hmem, hsz⟩
    · refine Or.inl ⟨domainFor blocks (pwidth p), ?_, domainFor_nil hsz⟩
      show domainFor blocks (pwidth p) ∈ p.rowConstraints.map (fun b => domainFor b (pwidth p))
      exact List.mem_map.mpr ⟨blocks, hmem, rfl⟩
    · refine Or.inr ⟨domainFor blocks (pheight p), ?_, domainFor_nil hsz⟩
      show domainFor blocks (pheight p) ∈ p.colConstraints.map (fun b => domainFor b (pheight p))
      exact List.mem_map.mpr ⟨blocks, hmem, rfl⟩
  constructor
  · rcases h with ⟨blocks, hmem, hsz⟩ | ⟨blocks, hmem, hsz⟩
    · refine Or.inl ⟨blocks, hmem, gen_possibilities_nil hsz, ?_⟩
      rw [← domainFor_nil hsz]
      show _ ∈ p.rowConstraints.map (fun b => domainFor b (pwidth p))
      exact List.mem_map.mpr ⟨blocks, hmem, rfl⟩
    · refine Or.inr ⟨blocks, hmem, gen_possibilities_nil hsz, ?_⟩
      rw [← domainFor_nil hsz]
      show _ ∈ p.colConstraints.map (fun b => domainFor b (pheight p))
      exact List.mem_map.mpr ⟨blocks, hmem, rfl⟩
  · have hnone := updatePass_init_none hex
    rcases hp : updatePass (initState p) with ⟨r, s'⟩
    rw [hp] at hnone
    cases r with
    | some ch => simp at hnone
    | none =>
      rw [solveF_of_updatePass_none hp]
      rfl

/-- C6 witness: 3 rows with clue `[1]`, one column with clue `[4]` (needs 4
cells in a line of 3). -/
theorem C6_oversized_clue_witness :
    ((∃ blocks ∈ (⟨[[1], [1], [1]], [[4]]⟩ : Puzzle).rowConstraints,
        generate_line_possibilities blocks (pwidth ⟨[[1], [1], [1]], [[4]]⟩) = [] ∧
        [] ∈ (initState ⟨[[1], [1], [1]], [[4]]⟩).rowDomains) ∨
     (∃ blocks ∈ (⟨[[1], [1], [1]], [[4]]⟩ : Puzzle).colConstraints,
        generate_line_possibilities blocks (pheight ⟨[[1], [1], [1]], [[4]]⟩) = [] ∧
        [] ∈ (initState ⟨[[1], [1], [1]], [[4]]⟩).colDomains)) ∧
    (solveF 1 (initState ⟨[[1], [1], [1]], [[4]]⟩)).map Prod.fst = some false :=
  C6_oversized_clue_unsolvable ⟨[[1], [1], [1]], [[4]]⟩ 0 (by decide)

/-- C7: a single `_update_domains` call only shrinks every row and column
domain (the final value is a subset of the entry value, assignments are only
removed) and moves every grid cell monotonically: each cell either keeps its
entry value or goes from Unknown to a fixed value. -/
theorem C7_propagation_monotone (s : SState) (b : Bool) (s' : SState)
    (h : updateLoop s = (b, s')) :
    List.Forall₂ (fun d' d => d' ⊆ d) s'.rowDomains s.rowDomains ∧
    List.Forall₂ (fun d' d => d' ⊆ d) s'.colDomains s.colDomains ∧
    List.Forall₂ (List.Forall₂ (fun c c' => c = none ∨ c' = c)) s.grid s'.grid := by
  rcases updateLoop_mono h with ⟨h1, h2, h3⟩
  exact ⟨List.Forall₂.imp (fun _ _ hsub => hsub.subset) h1,
    List.Forall₂.imp (fun _ _ hsub => hsub.subset) h2, h3⟩

/-- C7 witness: propagation on the 1×1 puzzle with clue `[1]`. -/
theorem C7_propagation_monotone_witness :
    List.Forall₂ (fun d' d => d' ⊆ d)
      (⟨[[some true]], [[[true]]], [[[true]]]⟩ : SState).rowDomains
      (initState ⟨[[1]], [[1]]⟩).rowDomains ∧
    List.Forall₂ (fun d' d => d' ⊆ d)
      (⟨[[some true]], [[[true]]], [[[true]]]⟩ : SState).colDomains
      (initState ⟨[[1]], [[1]]⟩).colDomains ∧
    List.Forall₂ (List.Forall₂ (fun c c' => c = none ∨ c' = c))
      (initState ⟨[[1]], [[1]]⟩).grid
      (⟨[[some true]], [[[true]]], [[[true]]]⟩ : SState).grid :=
  C7_propagation_monotone (initState ⟨[[1]], [[1]]⟩) true
    ⟨[[some true]], [[[true]]], [[[true]]]⟩ (by decide)

/-- C8: propagation is idempotent at a fixpoint — if `_update_domains` returns
true with state `s'`, invoking it again on `s'` returns true and leaves the
grid and every domain exactly unchanged. -/
theorem C8_propagation_idempotent (s s' : SState) (h : updateLoop s = (true, s')) :
    updateLoop s' = (true, s') :=
  updateLoop_fix h

/-- C8 witness: the fixpoint reached on the 1×1 puzzle with clue `[1]`. -/
theorem C8_propagation_idempotent_witness :
    updateLoop (⟨[[some true]], [[[true]]], [[[true]]]⟩ : SState)
      = (true, ⟨[[some true]], [[[true]]], [[[true]]]⟩) :=
  C8_propagation_idempotent (initState ⟨[[1]], [[1]]⟩)
    ⟨[[some true]], [[[true]]], [[[true]]]⟩ (by decide)

/-- C9: across an entire (fueled) `solve` run from any state — hence along
every branch and backtrack of the search — the final row and column domains
are subsets of the starting ones: no operation of the solver ever adds a line
assignment back into a domain.  Applied at `initState`, the domains stay
subsets of the Domains built at construction. -/
theorem C9_domains_only_shrink (n : Nat) (s : SState) (b : Bool) (s' : SState)
    (h : solveF n s = some (b, s')) :
    List.Forall₂ (fun d' d => d' ⊆ d) s'.rowDomains s.rowDomains ∧
    List.Forall₂ (fun d' d => d' ⊆ d) s'.colDomains s.colDomains := by
  rcases solveF_domains n s b s' h with ⟨h1, h2⟩
  exact ⟨List.Forall₂.imp (fun _ _ hsub => hsub.subset) h1,
    List.Forall₂.imp (fun _ _ hsub => hsub.subset) h2⟩

/-- C9 witness: a full solve of the 1×1 puzzle with clue `[1]`. -/
theorem C9_domains_only_shrink_witness :
    List.Forall₂ (fun d' d => d' ⊆ d)
      (⟨[[some true]], [[[true]]], [[[true]]]⟩ : SState).rowDomains
      (initState ⟨[[1]], [[1]]⟩).rowDomains ∧
    List.Forall₂ (fun d' d => d' ⊆ d)
      (⟨[[some true]], [[[true]]], [[[true]]]⟩ : SState).colDomains
      (initState ⟨[[1]], [[1]]⟩).colDomains :=
  C9_domains_only_shrink 3 (initState ⟨[[1]], [[1]]⟩) true
    ⟨[[some true]], [[[true]]], [[[true]]]⟩ (by decide)

/-- C10: for every length, the generator called with blocks `[0]` — the
encoding the image-based clue extractor emits for a line with no filled cell —
yields, after the set conversion of domain construction, exactly the singleton
domain of the all-empty line, the same domain as the empty clue `[]`; and the
extractor does emit `[0]` on an all-empty line. -/
theorem C10_zero_clue_domain (L : Nat) :
    domainFor [0] L = [List.replicate L false] ∧
    domainFor [] L = [List.replicate L false] ∧
    extract_clues (List.replicate L false) = [0] := by
  refine ⟨?_, ?_, ?_⟩
  · show (generate_line_possibilities [0] L).dedup = _
    rw [gen_zero_block]
    exact dedup_replicate_succ _ L
  · show (generate_line_possibilities [] L).dedup = _
    rw [show generate_line_possibilities [] L = [List.replicate L false] from rfl]
    rw [List.dedup_cons_of_not_mem (by simp), List.dedup_nil]
  · show (if (runs (List.replicate L false)).isEmpty then [0]
        else runs (List.replicate L false)) = [0]
    rw [show runs (List.replicate L false) = [] from clueScan_replicate_false_zero L]
    rfl

end Nonogram
